import Mathlib

/-!
Verification of the rasterh3 core: a shallow embedding of the crate's data
model (H3 cell hierarchy, `CellCoverage`, the conversion pipeline helpers in
`array.rs`, `util.rs` and `resolution.rs`) together with proofs about the
properties stated in the specification.

Machine integers of the source are modelled as `Nat`, geographic `f64`
coordinates as `ℚ` (the algorithms under study are control-flow and exact
comparisons; transcendental area computations are abstracted as parameters).
-/

namespace RasterH3

/-!
## H3 cell model

`h3o::CellIndex` is an external dependency of the crate.  A cell of the
global hierarchical hexagonal grid is modelled from its interface: a base
cell number together with one child digit (0‥6) per resolution level; the
resolution is the number of digits and is at most 15.  `parent(res)`
truncates the digit list, so ancestorship is the list-prefix relation.
-/

structure CellIndex where
  base : Nat
  digits : List (Fin 7)
  digits_len_le : digits.length ≤ 15

namespace CellIndex

theorem ext {a b : CellIndex} (h1 : a.base = b.base) (h2 : a.digits = b.digits) : a = b := by
  cases a; cases b
  simp only at h1 h2
  subst h1; subst h2
  rfl

instance : DecidableEq CellIndex := fun a b =>
  if h : a.base = b.base ∧ a.digits = b.digits then
    isTrue (ext h.1 h.2)
  else
    isFalse (by intro e; subst e; simp at h)

/-- Models `CellIndex::resolution`: the resolution is the number of digits. -/
def resolution (c : CellIndex) : Nat := c.digits.length

theorem resolution_le (c : CellIndex) : c.resolution ≤ 15 := c.digits_len_le

/-- Models `CellIndex::parent(res)` for `res ≤ resolution`: truncate the digits; the
parent at the cell's own resolution is the cell itself.  (h3o returns `None`
for finer-than-own resolutions; call sites in the crate never do that.) -/
def parentAt (i : Nat) (c : CellIndex) : CellIndex :=
  ⟨c.base, c.digits.take i, by
    have := c.digits_len_le
    rw [List.length_take]
    exact le_trans (min_le_right _ _) this⟩

@[simp] theorem parentAt_base (i : Nat) (c : CellIndex) : (parentAt i c).base = c.base := rfl

@[simp] theorem parentAt_digits (i : Nat) (c : CellIndex) :
    (parentAt i c).digits = c.digits.take i := rfl

theorem parentAt_resolution (i : Nat) (c : CellIndex) (h : i ≤ c.resolution) :
    (parentAt i c).resolution = i := by
  simp only [resolution, parentAt, List.length_take]
  exact Nat.min_eq_left h

@[simp] theorem parentAt_self (c : CellIndex) : parentAt c.resolution c = c := by
  refine ext rfl ?_
  simp [resolution]

/-- Cell `a` is an ancestor of `c` or equal to it: same base cell, digits a prefix. -/
def ancestorOrSelf (a c : CellIndex) : Prop :=
  a.base = c.base ∧ a.digits <+: c.digits

/-- Strict ancestorship. -/
def isStrictAncestorOf (a c : CellIndex) : Prop := ancestorOrSelf a c ∧ a ≠ c

instance (a c : CellIndex) : Decidable (ancestorOrSelf a c) := by
  unfold ancestorOrSelf; infer_instance

instance (a c : CellIndex) : Decidable (isStrictAncestorOf a c) := by
  unfold isStrictAncestorOf; infer_instance

theorem ancestorOrSelf.refl (c : CellIndex) : ancestorOrSelf c c :=
  ⟨rfl, List.prefix_refl _⟩

theorem ancestorOrSelf.trans {a b c : CellIndex}
    (h₁ : ancestorOrSelf a b) (h₂ : ancestorOrSelf b c) : ancestorOrSelf a c :=
  ⟨h₁.1.trans h₂.1, h₁.2.trans h₂.2⟩

theorem ancestorOrSelf.res_le_of_anc {a c : CellIndex} (h : ancestorOrSelf a c) :
    a.resolution ≤ c.resolution := h.2.length_le

theorem parentAt_ancestorOrSelf (i : Nat) (c : CellIndex) :
    ancestorOrSelf (parentAt i c) c := ⟨rfl, List.take_prefix i c.digits⟩

/-- An ancestor-or-self of `c` is exactly the truncation of `c` at its resolution. -/
theorem ancestorOrSelf.eq_parentAt {a c : CellIndex} (h : ancestorOrSelf a c) :
    a = parentAt a.resolution c := by
  refine ext h.1 ?_
  have := List.prefix_iff_eq_take.mp h.2
  simpa [parentAt, resolution] using this

theorem isStrictAncestorOf.resolution_lt {a c : CellIndex} (h : isStrictAncestorOf a c) :
    a.resolution < c.resolution := by
  rcases lt_or_eq_of_le h.1.res_le_of_anc with hlt | heq
  · exact hlt
  · exact absurd (ext h.1.1 (h.1.2.eq_of_length heq)) h.2

/-- A strict ancestor at resolution `j < resolution c` is `parentAt j c`. -/
theorem parentAt_isStrictAncestorOf {j : Nat} {c : CellIndex} (h : j < c.resolution) :
    isStrictAncestorOf (parentAt j c) c := by
  refine ⟨parentAt_ancestorOrSelf j c, ?_⟩
  intro heq
  have := parentAt_resolution j c (le_of_lt h)
  rw [heq] at this
  omega

/-- Injective encoding of a digit list as a natural number (base 8, digits 1‥7). -/
def encodeDigits : List (Fin 7) → Nat
  | [] => 0
  | d :: rest => (d.val + 1) + 8 * encodeDigits rest

theorem encodeDigits_injective : Function.Injective encodeDigits := by
  intro l₁
  induction l₁ with
  | nil =>
    intro l₂ h
    cases l₂ with
    | nil => rfl
    | cons d rest => simp only [encodeDigits] at h; omega
  | cons d rest ih =>
    intro l₂ h
    cases l₂ with
    | nil => simp only [encodeDigits] at h; omega
    | cons e rest₂ =>
      simp only [encodeDigits] at h
      have hd : d.val = e.val ∧ encodeDigits rest = encodeDigits rest₂ := by
        have h₁ : d.val < 7 := d.2
        have h₂ : e.val < 7 := e.2
        omega
      rw [Fin.ext hd.1, ih hd.2]

/-- Injective encoding of a cell as a natural number; used to model the
`u64` ordering by which Rust sorts `CellIndex` values. -/
def encode (c : CellIndex) : Nat := Nat.pair c.base (encodeDigits c.digits)

theorem encode_injective : Function.Injective encode := by
  intro a b h
  unfold encode at h
  rw [Nat.pair_eq_pair] at h
  exact ext h.1 (encodeDigits_injective h.2)

instance : LinearOrder CellIndex := LinearOrder.lift' encode encode_injective

end CellIndex

/-!
## Sorting and adjacent-duplicate removal

`Vec::sort` followed by `Vec::dedup` (which removes *consecutive* duplicates)
is modelled by `insertionSort` followed by `dedupAdj`.
-/

/-- Models `Vec::dedup`: remove consecutive equal elements. -/
def dedupAdj {α : Type} [DecidableEq α] : List α → List α
  | [] => []
  | [a] => [a]
  | a :: b :: rest => if a = b then dedupAdj (b :: rest) else a :: dedupAdj (b :: rest)

@[simp] theorem dedupAdj_nil {α : Type} [DecidableEq α] : dedupAdj ([] : List α) = [] := rfl

theorem mem_dedupAdj {α : Type} [DecidableEq α] {l : List α} {a : α} :
    a ∈ dedupAdj l ↔ a ∈ l := by
  induction l with
  | nil => simp
  | cons x t ih =>
    cases t with
    | nil => simp [dedupAdj]
    | cons y rest =>
      by_cases hxy : x = y
      · rw [show dedupAdj (x :: y :: rest) = dedupAdj (y :: rest) from if_pos hxy, ih]
        subst hxy
        simp
      · rw [show dedupAdj (x :: y :: rest) = x :: dedupAdj (y :: rest) from if_neg hxy]
        simp only [List.mem_cons] at ih ⊢
        tauto

theorem dedupAdj_pairwise_lt {α : Type} [DecidableEq α] [LinearOrder α] {l : List α}
    (h : l.Pairwise (· ≤ ·)) : (dedupAdj l).Pairwise (· < ·) := by
  induction l with
  | nil => simp
  | cons x t ih =>
    cases t with
    | nil => simp [dedupAdj]
    | cons y rest =>
      rw [List.pairwise_cons] at h
      by_cases hxy : x = y
      · rw [show dedupAdj (x :: y :: rest) = dedupAdj (y :: rest) from if_pos hxy]
        exact ih h.2
      · rw [show dedupAdj (x :: y :: rest) = x :: dedupAdj (y :: rest) from if_neg hxy]
        rw [List.pairwise_cons]
        refine ⟨?_, ih h.2⟩
        intro a ha
        rw [mem_dedupAdj] at ha
        have hxa : x ≤ a := h.1 a ha
        rcases List.mem_cons.mp ha with rfl | ha'
        · exact lt_of_le_of_ne hxa hxy
        · have hy : x ≤ y := h.1 y (List.mem_cons_self y rest)
          have hya : y ≤ a := (List.pairwise_cons.mp h.2).1 a ha'
          exact lt_of_lt_of_le (lt_of_le_of_ne hy hxy) hya

theorem dedupAdj_eq_self {α : Type} [DecidableEq α] [LinearOrder α] {l : List α}
    (h : l.Pairwise (· < ·)) : dedupAdj l = l := by
  induction l with
  | nil => rfl
  | cons x t ih =>
    cases t with
    | nil => rfl
    | cons y rest =>
      rw [List.pairwise_cons] at h
      have hxy : x ≠ y := ne_of_lt (h.1 y (List.mem_cons_self y rest))
      rw [show dedupAdj (x :: y :: rest) = x :: dedupAdj (y :: rest) from if_neg hxy]
      rw [ih h.2]

/-- Models `Vec::sort` followed by `Vec::dedup` on a bucket of cells. -/
def sortDedup (l : List CellIndex) : List CellIndex :=
  dedupAdj (l.insertionSort (· ≤ ·))

theorem mem_sortDedup {l : List CellIndex} {a : CellIndex} :
    a ∈ sortDedup l ↔ a ∈ l := by
  rw [sortDedup, mem_dedupAdj]
  exact (List.perm_insertionSort (· ≤ ·) l).mem_iff

theorem sortDedup_pairwise_lt (l : List CellIndex) :
    (sortDedup l).Pairwise (· < ·) :=
  dedupAdj_pairwise_lt (List.sorted_insertionSort (· ≤ ·) l)

theorem sortDedup_nodup (l : List CellIndex) : (sortDedup l).Nodup :=
  (sortDedup_pairwise_lt l).imp ne_of_lt

theorem sortDedup_congr_perm {l₁ l₂ : List CellIndex} (h : l₁.Perm l₂) :
    sortDedup l₁ = sortDedup l₂ := by
  unfold sortDedup
  congr 1
  exact List.eq_of_perm_of_sorted
    (((List.perm_insertionSort _ l₁).trans h).trans (List.perm_insertionSort _ l₂).symm)
    (List.sorted_insertionSort _ l₁) (List.sorted_insertionSort _ l₂)

theorem sortDedup_eq_self {l : List CellIndex} (h : l.Pairwise (· < ·)) :
    sortDedup l = l := by
  unfold sortDedup
  have hsorted : l.Pairwise (· ≤ ·) := h.imp le_of_lt
  have : l.insertionSort (· ≤ ·) = l :=
    List.eq_of_perm_of_sorted (List.perm_insertionSort _ l)
      (List.sorted_insertionSort _ l) hsorted
  rw [this]
  exact dedupAdj_eq_self h

namespace CellIndex

/-- Replace the last digit of a cell by `k`, producing one of its siblings
(the cell itself included, when `k` is its own last digit). -/
def replaceLastDigit (c : CellIndex) (k : Fin 7) : CellIndex :=
  ⟨c.base, c.digits.dropLast ++ [k], by
    have h := c.digits_len_le
    rw [List.length_append, List.length_dropLast]
    simp only [List.length_cons, List.length_nil]
    omega⟩

/-- The parent one resolution coarser (drop the last digit). -/
def parentPred (c : CellIndex) : CellIndex :=
  ⟨c.base, c.digits.dropLast, by
    rw [List.length_dropLast]
    exact le_trans (Nat.sub_le _ _) c.digits_len_le⟩

theorem parentPred_ancestorOrSelf (c : CellIndex) : ancestorOrSelf (parentPred c) c :=
  ⟨rfl, List.dropLast_prefix c.digits⟩

/-- All 7 siblings of `c` (including `c` itself) are present in `cells`. -/
def siblingsAllPresent (cells : List CellIndex) (c : CellIndex) : Bool :=
  (List.finRange 7).all (fun k => decide (replaceLastDigit c k ∈ cells))

/-- Modelled from the spec: `h3o::CellIndex::compact`, the hierarchy-aware
compaction primitive, is an external dependency whose code is not part of
this repository.  Per the spec's glossary ("Compaction: replacing a complete
set of sibling cells with their shared parent, recursively, to minimize
representation size while preserving covered area") a complete group of 7
siblings is replaced by its parent and the promotion is repeated one
resolution coarser; `r` is the resolution of the input set (which the caller
in `coverage.rs` always passes sorted, unique and uniform, so the primitive's
error cases are unreachable and it is modelled total). -/
def compactCells : Nat → List CellIndex → List CellIndex
  | 0, cells => cells
  | r + 1, cells =>
    let keep := cells.filter (fun c => !(siblingsAllPresent cells c))
    let promotedParents :=
      sortDedup ((cells.filter (fun c => siblingsAllPresent cells c)).map parentPred)
    keep ++ compactCells r promotedParents

/-- Every input cell keeps an ancestor-or-self in the compacted output. -/
theorem compactCells_covers (r : Nat) (cells : List CellIndex) :
    ∀ c ∈ cells, ∃ p ∈ compactCells r cells, ancestorOrSelf p c := by
  induction r generalizing cells with
  | zero => intro c hc; exact ⟨c, hc, ancestorOrSelf.refl c⟩
  | succ r ih =>
    intro c hc
    by_cases hsib : siblingsAllPresent cells c = true
    · have hmem : parentPred c ∈
          sortDedup ((cells.filter (fun c => siblingsAllPresent cells c)).map parentPred) := by
        rw [mem_sortDedup]
        exact List.mem_map_of_mem parentPred (List.mem_filter.mpr ⟨hc, hsib⟩)
      obtain ⟨p, hp, hanc⟩ := ih _ (parentPred c) hmem
      refine ⟨p, ?_, hanc.trans (parentPred_ancestorOrSelf c)⟩
      simp only [compactCells]
      exact List.mem_append_right _ hp
    · refine ⟨c, ?_, ancestorOrSelf.refl c⟩
      simp only [compactCells]
      refine List.mem_append_left _ (List.mem_filter.mpr ⟨hc, ?_⟩)
      simp [hsib]

end CellIndex

/-!
## The `CellCoverage` container (`coverage.rs`)

The Rust struct holds a `[Vec<CellIndex>; 16]` of cells by resolution and a
`[bool; 16]` of modified flags; both fixed-size arrays are modelled as lists
of length 16 (`getD`/`set` model indexing; the indices used are cell
resolutions, which are at most 15).  The mutating methods are modelled as
functions returning the updated container.
-/

structure CellCoverage where
  modified_resolutions : List Bool
  cells_by_resolution : List (List CellIndex)
deriving DecidableEq

namespace CellCoverage

/-- Models `CellCoverage::default()`. -/
def empty : CellCoverage := ⟨List.replicate 16 false, List.replicate 16 []⟩

/-- The bucket of cells stored for resolution `i`. -/
def bucket (cov : CellCoverage) (i : Nat) : List CellIndex :=
  cov.cells_by_resolution.getD i []

/-- Models `CellCoverage::insert`: push into the bucket of the cell's resolution and
mark that resolution modified. -/
def insert (cov : CellCoverage) (cell : CellIndex) : CellCoverage :=
  { modified_resolutions := cov.modified_resolutions.set cell.resolution true,
    cells_by_resolution :=
      cov.cells_by_resolution.set cell.resolution (cov.bucket cell.resolution ++ [cell]) }

/-- Models `CellCoverage::append`: move every non-empty bucket of `other` onto the
matching bucket of `self`, marking the destination resolution modified.
(The Rust method drains `other` in place; the drained `other` plays no role
in any claim, so only the updated `self` is returned.) -/
def append (cov other : CellCoverage) : CellCoverage :=
  { modified_resolutions := (List.range 16).map (fun i =>
      if (other.bucket i).isEmpty then cov.modified_resolutions.getD i false else true),
    cells_by_resolution := (List.range 16).map (fun i => cov.bucket i ++ other.bucket i) }

/-- Models `CellCoverage::covers`: for every resolution from 0 up to the cell's own,
test membership of the ancestor at that resolution (the cell itself at its
own resolution) in that resolution's bucket. -/
def covers (cov : CellCoverage) (cell : CellIndex) : Bool :=
  (List.range (cell.resolution + 1)).any (fun res =>
    decide (CellIndex.parentAt res cell ∈ cov.bucket res))

/-- The inner check of `CellCoverage::dedup`'s retain closure: walk the
resolutions from the cell's own down to 0 and test whether the ancestor at
that resolution is in the `seen` set. -/
def isContainedInSeen (seen : List CellIndex) (cell : CellIndex) : Bool :=
  (List.range (cell.resolution + 1)).any (fun r =>
    decide (CellIndex.parentAt r cell ∈ seen))

/-- One bucket of the parent-collapse pass: when `seen` is non-empty, retain
only the cells none of whose ancestors is in `seen`. -/
def retainBucket (seen : List CellIndex) (v : List CellIndex) : List CellIndex :=
  if seen.isEmpty then v else v.filter (fun cell => !(isContainedInSeen seen cell))

/-- The parent-collapse pass of `CellCoverage::dedup`: walk buckets from
coarsest to finest keeping a running `seen` set of all previously retained
cells; drop any cell one of whose ancestors is in `seen`. -/
def retainPass (seen : List CellIndex) : List (List CellIndex) → List (List CellIndex)
  | [] => []
  | v :: rest => retainBucket seen v :: retainPass (seen ++ retainBucket seen v) rest

/-- Models `CellCoverage::dedup(shrink, parents)`: sort and deduplicate every bucket;
when `parents` is set and more than one bucket is non-empty, additionally run
the parent-collapse pass.  (`shrink` only releases excess capacity via
`shrink_to_fit` and has no observable effect on the contents.) -/
def dedup (cov : CellCoverage) (shrink parents : Bool) : CellCoverage :=
  let sorted := cov.cells_by_resolution.map sortDedup
  let buckets :=
    if parents && decide (1 < sorted.countP (fun v => !v.isEmpty)) then
      retainPass [] sorted
    else sorted
  { modified_resolutions := cov.modified_resolutions, cells_by_resolution := buckets }

/-- One iteration of the `while let` loop in `CellCoverage::compact`: take the
bucket at `r_idx`, sort and deduplicate it, run the compaction primitive over
it, and insert every resulting cell back at its own resolution. -/
def compactStep (cov : CellCoverage) (r_idx : Nat) : CellCoverage :=
  let compacted_in := sortDedup (cov.bucket r_idx)
  let taken : CellCoverage :=
    { cov with cells_by_resolution := cov.cells_by_resolution.set r_idx [] }
  (CellIndex.compactCells r_idx compacted_in).foldl CellCoverage.insert taken

/-- Models `CellCoverage::compact`: plain dedup, then — if some resolution was
modified — walk from the finest modified resolution down to resolution 0
applying `compactStep`, clear all modified flags, and finish with
`dedup(true, true)`.  (The Rust method returns `Result`, but its error paths
— an out-of-range resolution from an index that is at most 15, and the
compaction primitive rejecting a sorted, unique, uniform input — are
unreachable, so the model is total.) -/
def compact (cov : CellCoverage) : CellCoverage :=
  match (List.range 16).reverse.find?
      (fun i => (cov.dedup false false).modified_resolutions.getD i false) with
  | none => (cov.dedup false false).dedup true true
  | some min_touched_res =>
    dedup
      { (List.range (min_touched_res + 1)).reverse.foldl compactStep (cov.dedup false false)
        with modified_resolutions := List.replicate 16 false }
      true true

/-- Models `CellCoverage::finalize(compact)`.  (The Rust parameter is itself named
`compact`; renamed to avoid clashing with the method.) -/
def finalize (cov : CellCoverage) (compactFlag : Bool) : CellCoverage :=
  if compactFlag then cov.compact else cov.dedup true true

/-- Models `CellCoverage::compacted_iter`: all buckets concatenated in resolution
order.  This is also the list of all stored cells. -/
def compacted_iter (cov : CellCoverage) : List CellIndex :=
  cov.cells_by_resolution.flatten

/-- Build a coverage by inserting a list of cells into an empty container. -/
def ofList (cells : List CellIndex) : CellCoverage :=
  cells.foldl insert empty

/-- Cells in `bs[j]` all have resolution `k + j`: the bucket invariant for a
sub-array of buckets starting at resolution `k`. -/
def BucketsInvFrom (k : Nat) (bs : List (List CellIndex)) : Prop :=
  ∀ (j : Nat) (h : j < bs.length), ∀ c ∈ bs[j], c.resolution = k + j

/-- The container's invariant: every cell stored in the bucket for
resolution `i` has resolution `i`. -/
def Inv (cov : CellCoverage) : Prop :=
  ∀ (i : Nat), ∀ c ∈ cov.bucket i, c.resolution = i

/-- Some stored cell is an ancestor of `c` (or `c` itself): the covered-area
soundness notion used to reason about `covers`. -/
def Covered (cov : CellCoverage) (c : CellIndex) : Prop :=
  ∃ p ∈ cov.compacted_iter, CellIndex.ancestorOrSelf p c

/-- Both fixed-size arrays of the Rust struct have 16 entries. -/
def WF (cov : CellCoverage) : Prop :=
  cov.modified_resolutions.length = 16 ∧ cov.cells_by_resolution.length = 16

end CellCoverage

namespace CellCoverage

theorem wf_empty : WF empty := by constructor <;> rfl

theorem wf_insert {cov : CellCoverage} (h : WF cov) (c : CellIndex) : WF (cov.insert c) := by
  constructor <;> simp [insert, List.length_set, h.1, h.2]

theorem wf_append (cov other : CellCoverage) : WF (cov.append other) := by
  constructor <;> simp [append]

theorem wf_dedup {cov : CellCoverage} (h : WF cov) (s p : Bool) : WF (cov.dedup s p) := by
  have hlen : ∀ seen bs, (retainPass seen bs).length = bs.length := by
    intro seen bs
    induction bs generalizing seen with
    | nil => rfl
    | cons v rest ih => simp [retainPass, ih]
  constructor
  · exact h.1
  · simp only [dedup]
    split
    · rw [hlen, List.length_map, h.2]
    · rw [List.length_map, h.2]

theorem retainPass_length (seen : List CellIndex) (bs : List (List CellIndex)) :
    (retainPass seen bs).length = bs.length := by
  induction bs generalizing seen with
  | nil => rfl
  | cons v rest ih => simp [retainPass, ih]

theorem wf_foldl_insert (out : List CellIndex) :
    ∀ {base : CellCoverage}, WF base → WF (out.foldl insert base) := by
  induction out with
  | nil => intro base h; exact h
  | cons c rest ih => intro base h; exact ih (wf_insert h c)

theorem wf_compactStep {cov : CellCoverage} (h : WF cov) (r : Nat) :
    WF (cov.compactStep r) :=
  wf_foldl_insert _ ⟨h.1, by simp [List.length_set, h.2]⟩

theorem wf_foldl_compactStep (idxs : List Nat) :
    ∀ {base : CellCoverage}, WF base → WF (idxs.foldl compactStep base) := by
  induction idxs with
  | nil => intro base h; exact h
  | cons i rest ih => intro base h; exact ih (wf_compactStep h i)

theorem wf_compact {cov : CellCoverage} (h : WF cov) : WF cov.compact := by
  have h1 : WF (cov.dedup false false) := wf_dedup h false false
  unfold compact
  cases hfind : (List.range 16).reverse.find?
      (fun i => (cov.dedup false false).modified_resolutions.getD i false) with
  | none => exact wf_dedup h1 true true
  | some r =>
    apply wf_dedup _ true true
    exact ⟨by simp, (wf_foldl_compactStep _ h1).2⟩

theorem wf_finalize {cov : CellCoverage} (h : WF cov) (b : Bool) : WF (cov.finalize b) := by
  unfold finalize
  split
  · exact wf_compact h
  · exact wf_dedup h true true

theorem wf_ofList (cells : List CellIndex) : WF (ofList cells) := by
  unfold ofList
  generalize hc : empty = base
  have hbase : WF base := hc ▸ wf_empty
  clear hc
  induction cells generalizing base with
  | nil => exact hbase
  | cons c rest ih => exact ih _ (wf_insert hbase c)

/-- Indexing a `(List.range n).map f` list. -/
theorem getD_map_range {α : Type} (f : Nat → α) {n i : Nat} (d : α) (h : i < n) :
    ((List.range n).map f).getD i d = f i := by
  rw [List.getD_eq_getElem _ _ (by simp [h])]
  simp

theorem bucket_append_lt (cov other : CellCoverage) {i : Nat} (h : i < 16) :
    (cov.append other).bucket i = cov.bucket i ++ other.bucket i := by
  unfold append bucket
  exact getD_map_range _ _ h

theorem bucket_append_ge (cov other : CellCoverage) {i : Nat} (h : 16 ≤ i) :
    (cov.append other).bucket i = [] := by
  unfold append bucket
  exact List.getD_eq_default _ _ (by simpa using h)

theorem resolution_lt_16 (c : CellIndex) : c.resolution < 16 :=
  lt_of_le_of_lt c.resolution_le (by norm_num)

theorem bucket_insert {cov : CellCoverage} (hwf : WF cov) (c : CellIndex) (i : Nat) :
    (cov.insert c).bucket i =
      if c.resolution = i then cov.bucket i ++ [c] else cov.bucket i := by
  have hres : c.resolution < cov.cells_by_resolution.length := by
    rw [hwf.2]; exact resolution_lt_16 c
  unfold insert bucket
  by_cases hi : i < cov.cells_by_resolution.length
  · rw [List.getD_eq_getElem _ _ (by simpa [List.length_set] using hi), List.getElem_set]
    by_cases hci : c.resolution = i
    · rw [if_pos hci, if_pos hci]
      subst hci
      rfl
    · rw [if_neg hci, if_neg hci, List.getD_eq_getElem _ _ hi]
  · have hgei : cov.cells_by_resolution.length ≤ i := le_of_not_lt hi
    have hne : c.resolution ≠ i := by omega
    rw [if_neg hne, List.getD_eq_default _ _ (by simpa [List.length_set] using hgei),
      List.getD_eq_default _ _ hgei]

theorem bucket_insert_self {cov : CellCoverage} (hwf : WF cov) (c : CellIndex) :
    (cov.insert c).bucket c.resolution = cov.bucket c.resolution ++ [c] := by
  rw [bucket_insert hwf c c.resolution, if_pos rfl]

theorem bucket_insert_subset {cov : CellCoverage} (hwf : WF cov) (c : CellIndex)
    {x : CellIndex} {i : Nat} (hx : x ∈ cov.bucket i) : x ∈ (cov.insert c).bucket i := by
  rw [bucket_insert hwf c i]
  split
  · exact List.mem_append_left _ hx
  · exact hx

theorem mem_bucket_lt {cov : CellCoverage} (hwf : WF cov) {x : CellIndex} {i : Nat}
    (hx : x ∈ cov.bucket i) : i < 16 := by
  by_contra hge
  push_neg at hge
  rw [bucket, List.getD_eq_default _ _ (by rw [hwf.2]; omega)] at hx
  simp at hx

theorem isContainedInSeen_eq_true {seen : List CellIndex} {c : CellIndex} :
    isContainedInSeen seen c = true ↔
      ∃ r, r ≤ c.resolution ∧ CellIndex.parentAt r c ∈ seen := by
  unfold isContainedInSeen
  rw [List.any_eq_true]
  constructor
  · rintro ⟨r, hr, hmem⟩
    exact ⟨r, by have := List.mem_range.mp hr; omega, by simpa using hmem⟩
  · rintro ⟨r, hr, hmem⟩
    exact ⟨r, List.mem_range.mpr (by omega), by simpa using hmem⟩

theorem retainBucket_sublist (seen v : List CellIndex) :
    (retainBucket seen v).Sublist v := by
  unfold retainBucket
  split
  · exact List.Sublist.refl v
  · exact List.filter_sublist v

theorem mem_of_mem_retainBucket {seen v : List CellIndex} {x : CellIndex}
    (h : x ∈ retainBucket seen v) : x ∈ v :=
  (retainBucket_sublist seen v).mem h

theorem mem_retainBucket {seen v : List CellIndex} {x : CellIndex} (hx : x ∈ v)
    (h : ∀ r, r ≤ x.resolution → CellIndex.parentAt r x ∉ seen) :
    x ∈ retainBucket seen v := by
  unfold retainBucket
  split
  · exact hx
  · refine List.mem_filter.mpr ⟨hx, ?_⟩
    simp only [Bool.not_eq_true']
    rw [← Bool.not_eq_true, isContainedInSeen_eq_true]
    rintro ⟨r, hr, hmem⟩
    exact h r hr hmem

theorem ancestor_in_seen_of_not_retained {seen v : List CellIndex} {p : CellIndex}
    (hp : p ∈ v) (hnot : p ∉ retainBucket seen v) :
    ∃ r, r ≤ p.resolution ∧ CellIndex.parentAt r p ∈ seen := by
  unfold retainBucket at hnot
  split at hnot
  · exact absurd hp hnot
  · rw [List.mem_filter] at hnot
    push_neg at hnot
    have h2 := hnot hp
    have h3 : isContainedInSeen seen p = true := by
      revert h2
      cases h : isContainedInSeen seen p <;> simp [h]
    exact isContainedInSeen_eq_true.mp h3

theorem mem_seen_of_retainBucket_self {seen v : List CellIndex} {x : CellIndex}
    (hx : x ∈ retainBucket seen v) (hcontains : isContainedInSeen seen x = true) :
    seen.isEmpty = true := by
  unfold retainBucket at hx
  split at hx
  · assumption
  · rw [List.mem_filter, hcontains] at hx
    simp at hx

theorem retainPass_getElem_sublist (bs : List (List CellIndex)) :
    ∀ (seen : List CellIndex) (j : Nat) (h : j < (retainPass seen bs).length)
      (h' : j < bs.length), (retainPass seen bs)[j].Sublist bs[j] := by
  induction bs with
  | nil => intro seen j h h'; simp at h'
  | cons v rest ih =>
    intro seen j h h'
    cases j with
    | zero =>
      show (retainBucket seen v :: _)[0].Sublist (v :: rest)[0]
      simpa using retainBucket_sublist seen v
    | succ j =>
      show (retainBucket seen v :: retainPass _ rest)[j + 1].Sublist (v :: rest)[j + 1]
      rw [List.getElem_cons_succ, List.getElem_cons_succ]
      exact ih _ j (by simpa [retainPass, retainPass_length] using h')
        (by simpa using h')

theorem retainPass_flatten_subset (bs : List (List CellIndex)) :
    ∀ (seen : List CellIndex) (x : CellIndex),
      x ∈ (retainPass seen bs).flatten → x ∈ bs.flatten := by
  induction bs with
  | nil => intro seen x h; simpa [retainPass] using h
  | cons v rest ih =>
    intro seen x h
    rw [show retainPass seen (v :: rest) =
        retainBucket seen v :: retainPass (seen ++ retainBucket seen v) rest from rfl,
      List.flatten_cons, List.mem_append] at h
    rw [List.flatten_cons, List.mem_append]
    rcases h with h | h
    · exact Or.inl (mem_of_mem_retainBucket h)
    · exact Or.inr (ih _ x h)

theorem bucketsInvFrom_cons {k : Nat} {v : List CellIndex} {rest : List (List CellIndex)} :
    BucketsInvFrom k (v :: rest) ↔
      (∀ c ∈ v, c.resolution = k) ∧ BucketsInvFrom (k + 1) rest := by
  constructor
  · intro h
    constructor
    · intro c hc
      have := h 0 (by simp) c (by simpa using hc)
      simpa using this
    · intro j hj c hc
      have := h (j + 1) (by simpa using hj) c (by simpa using hc)
      omega
  · rintro ⟨hv, hrest⟩ j hj c hc
    cases j with
    | zero => simpa using hv c (by simpa using hc)
    | succ j =>
      have := hrest j (by simpa using hj) c (by simpa using hc)
      omega

theorem bucketsInvFrom_res_ge {k : Nat} {bs : List (List CellIndex)}
    (h : BucketsInvFrom k bs) : ∀ c ∈ bs.flatten, k ≤ c.resolution := by
  intro c hc
  rw [List.mem_flatten] at hc
  obtain ⟨l, hl, hcl⟩ := hc
  obtain ⟨j, hj, rfl⟩ := List.mem_iff_getElem.mp hl
  have := h j hj c hcl
  omega

/-- Retention soundness: every cell covered by some cell of `seen ++ bs`
remains covered by a cell of `seen` together with the retained buckets. -/
theorem retainPass_covered (bs : List (List CellIndex)) :
    ∀ (seen : List CellIndex) (c : CellIndex),
      (∃ p, (p ∈ seen ∨ p ∈ bs.flatten) ∧ CellIndex.ancestorOrSelf p c) →
      ∃ p, (p ∈ seen ∨ p ∈ (retainPass seen bs).flatten) ∧
        CellIndex.ancestorOrSelf p c := by
  induction bs with
  | nil => intro seen c h; simpa [retainPass] using h
  | cons v rest ih =>
    rintro seen c ⟨p, hp, hanc⟩
    rcases hp with hseen | hflat
    · exact ⟨p, Or.inl hseen, hanc⟩
    · rw [List.flatten_cons, List.mem_append] at hflat
      rcases hflat with hv | hrest
      · by_cases hkeep : p ∈ retainBucket seen v
        · refine ⟨p, Or.inr ?_, hanc⟩
          rw [show retainPass seen (v :: rest) =
              retainBucket seen v :: retainPass (seen ++ retainBucket seen v) rest from rfl,
            List.flatten_cons, List.mem_append]
          exact Or.inl hkeep
        · obtain ⟨r, _, hmem⟩ := ancestor_in_seen_of_not_retained hv hkeep
          exact ⟨CellIndex.parentAt r p, Or.inl hmem,
            (CellIndex.parentAt_ancestorOrSelf r p).trans hanc⟩
      · obtain ⟨q, hq, hqa⟩ := ih (seen ++ retainBucket seen v) c ⟨p, Or.inr hrest, hanc⟩
        rw [show retainPass seen (v :: rest) =
            retainBucket seen v :: retainPass (seen ++ retainBucket seen v) rest from rfl,
          List.flatten_cons]
        rcases hq with hq | hq
        · rw [List.mem_append] at hq
          rcases hq with hq | hq
          · exact ⟨q, Or.inl hq, hqa⟩
          · exact ⟨q, Or.inr (List.mem_append_left _ hq), hqa⟩
        · exact ⟨q, Or.inr (List.mem_append_right _ hq), hqa⟩

/-- Retention completeness: a cell with no strict ancestor anywhere in the
buckets and no ancestor in `seen` is retained. -/
theorem retainPass_mem_of_no_ancestor (bs : List (List CellIndex)) :
    ∀ (seen : List CellIndex) (k : Nat) (c : CellIndex),
      BucketsInvFrom k bs →
      c ∈ bs.flatten →
      (∀ r, r ≤ c.resolution → CellIndex.parentAt r c ∉ seen) →
      (∀ a ∈ bs.flatten, ¬ a.isStrictAncestorOf c) →
      c ∈ (retainPass seen bs).flatten := by
  induction bs with
  | nil => intro seen k c _ hc; simp at hc
  | cons v rest ih =>
    intro seen k c hinv hc hseen hnoanc
    obtain ⟨hv, hrest⟩ := bucketsInvFrom_cons.mp hinv
    rw [show retainPass seen (v :: rest) =
        retainBucket seen v :: retainPass (seen ++ retainBucket seen v) rest from rfl,
      List.flatten_cons, List.mem_append]
    rw [List.flatten_cons, List.mem_append] at hc
    rcases hc with hcv | hcr
    · exact Or.inl (mem_retainBucket hcv hseen)
    · refine Or.inr (ih _ (k + 1) c hrest hcr ?_ ?_)
      · intro r hr hmem
        rw [List.mem_append] at hmem
        rcases hmem with hmem | hmem
        · exact hseen r hr hmem
        · have hmemv := mem_of_mem_retainBucket hmem
          have hres_par : (CellIndex.parentAt r c).resolution = r :=
            CellIndex.parentAt_resolution r c hr
          have hrk : r = k := by rw [← hres_par]; exact hv _ hmemv
          have hcres : k + 1 ≤ c.resolution := bucketsInvFrom_res_ge hrest c hcr
          have hstrict : (CellIndex.parentAt r c).isStrictAncestorOf c :=
            CellIndex.parentAt_isStrictAncestorOf (by omega)
          exact hnoanc _ (List.mem_flatten.mpr ⟨v, List.mem_cons_self v rest, hmemv⟩) hstrict
      · intro a ha
        exact hnoanc a (List.mem_flatten.mpr (by
          rw [List.mem_flatten] at ha
          obtain ⟨l, hl, hal⟩ := ha
          exact ⟨l, List.mem_cons_of_mem v hl, hal⟩))

/-- After the pass, no retained cell has a strict ancestor among `seen` and
the retained cells. -/
theorem retainPass_no_ancestor (bs : List (List CellIndex)) :
    ∀ (seen : List CellIndex) (k : Nat),
      BucketsInvFrom k bs →
      (∀ q ∈ seen, q.resolution < k) →
      ∀ b ∈ (retainPass seen bs).flatten, ∀ a,
        a.isStrictAncestorOf b →
        (a ∈ seen ∨ a ∈ (retainPass seen bs).flatten) → False := by
  induction bs with
  | nil => intro seen k _ _ b hb; simp [retainPass] at hb
  | cons v rest ih =>
    intro seen k hinv hseen b hb a hstrict ha
    obtain ⟨hv, hrest⟩ := bucketsInvFrom_cons.mp hinv
    rw [show retainPass seen (v :: rest) =
        retainBucket seen v :: retainPass (seen ++ retainBucket seen v) rest from rfl,
      List.flatten_cons, List.mem_append] at hb ha
    rcases hb with hb | hb
    · have hbres : b.resolution = k := hv b (mem_of_mem_retainBucket hb)
      have hares : a.resolution < k := hbres ▸ hstrict.resolution_lt
      rcases ha with ha | ha | ha
      · -- `a ∈ seen`: then `b` would have been filtered out
        have hcont : isContainedInSeen seen b = true := by
          rw [isContainedInSeen_eq_true]
          exact ⟨a.resolution, by omega, by rw [← hstrict.1.eq_parentAt]; exact ha⟩
        have hemp := mem_seen_of_retainBucket_self hb hcont
        rw [List.isEmpty_iff] at hemp
        subst hemp
        simp at ha
      · have : a.resolution = k := hv a (mem_of_mem_retainBucket ha)
        omega
      · have haf : a ∈ rest.flatten := retainPass_flatten_subset rest _ a ha
        have := bucketsInvFrom_res_ge hrest a haf
        omega
    · refine ih (seen ++ retainBucket seen v) (k + 1) hrest ?_ b hb a hstrict ?_
      · intro q hq
        rw [List.mem_append] at hq
        rcases hq with hq | hq
        · have := hseen q hq; omega
        · have := hv q (mem_of_mem_retainBucket hq); omega
      · rcases ha with ha | ha | ha
        · exact Or.inl (List.mem_append_left _ ha)
        · exact Or.inl (List.mem_append_right _ ha)
        · exact Or.inr ha

/-- When the buckets satisfy the invariant and contain no strict
ancestor/descendant pair (also relative to `seen`), the pass changes nothing. -/
theorem retainPass_eq_self (bs : List (List CellIndex)) :
    ∀ (seen : List CellIndex) (k : Nat),
      BucketsInvFrom k bs →
      (∀ q ∈ seen, q.resolution < k) →
      (∀ a b, (a ∈ seen ∨ a ∈ bs.flatten) → b ∈ bs.flatten → ¬ a.isStrictAncestorOf b) →
      retainPass seen bs = bs := by
  induction bs with
  | nil => intro seen k _ _ _; rfl
  | cons v rest ih =>
    intro seen k hinv hseen hnopair
    obtain ⟨hv, hrest⟩ := bucketsInvFrom_cons.mp hinv
    have hrb : retainBucket seen v = v := by
      unfold retainBucket
      split
      · rfl
      · rw [List.filter_eq_self]
        intro cell hcell
        simp only [Bool.not_eq_true']
        rw [← Bool.not_eq_true, isContainedInSeen_eq_true]
        rintro ⟨r, hr, hmem⟩
        have hres_cell : cell.resolution = k := hv cell hcell
        have hres_par : (CellIndex.parentAt r cell).resolution = r :=
          CellIndex.parentAt_resolution r cell hr
        rcases lt_or_eq_of_le hr with hr' | hr'
        · exact hnopair _ cell (Or.inl hmem)
            (List.mem_flatten.mpr ⟨v, List.mem_cons_self v rest, hcell⟩)
            (CellIndex.parentAt_isStrictAncestorOf hr')
        · rw [hr', CellIndex.parentAt_self] at hmem
          have := hseen cell hmem
          omega
    show retainBucket seen v :: retainPass (seen ++ retainBucket seen v) rest = v :: rest
    rw [hrb]
    congr 1
    refine ih (seen ++ v) (k + 1) hrest ?_ ?_
    · intro q hq
      rw [List.mem_append] at hq
      rcases hq with hq | hq
      · have := hseen q hq; omega
      · have := hv q hq; omega
    · intro a b ha hb
      refine hnopair a b ?_ (List.mem_flatten.mpr ?_)
      · rcases ha with ha | ha
        · rw [List.mem_append] at ha
          rcases ha with ha | ha
          · exact Or.inl ha
          · exact Or.inr (List.mem_flatten.mpr ⟨v, List.mem_cons_self v rest, ha⟩)
        · rw [List.mem_flatten] at ha
          obtain ⟨l, hl, hal⟩ := ha
          exact Or.inr (List.mem_flatten.mpr ⟨l, List.mem_cons_of_mem v hl, hal⟩)
      · rw [List.mem_flatten] at hb
        obtain ⟨l, hl, hbl⟩ := hb
        exact ⟨l, List.mem_cons_of_mem v hl, hbl⟩

theorem inv_iff_bucketsInvFrom {cov : CellCoverage} :
    Inv cov ↔ BucketsInvFrom 0 cov.cells_by_resolution := by
  constructor
  · intro h j hj c hc
    have : c ∈ cov.bucket j := by
      rw [bucket, List.getD_eq_getElem _ _ hj]
      exact hc
    rw [h j c this]
    omega
  · intro h i c hc
    by_cases hi : i < cov.cells_by_resolution.length
    · rw [bucket, List.getD_eq_getElem _ _ hi] at hc
      have := h i hi c hc
      omega
    · rw [bucket, List.getD_eq_default _ _ (le_of_not_lt hi)] at hc
      simp at hc

theorem mem_compacted_iter {cov : CellCoverage} {x : CellIndex} :
    x ∈ cov.compacted_iter ↔ ∃ i, x ∈ cov.bucket i := by
  constructor
  · intro h
    rw [compacted_iter, List.mem_flatten] at h
    obtain ⟨l, hl, hxl⟩ := h
    obtain ⟨j, hj, rfl⟩ := List.mem_iff_getElem.mp hl
    exact ⟨j, by rw [bucket, List.getD_eq_getElem _ _ hj]; exact hxl⟩
  · rintro ⟨i, hi⟩
    by_cases h : i < cov.cells_by_resolution.length
    · rw [bucket, List.getD_eq_getElem _ _ h] at hi
      exact List.mem_flatten.mpr ⟨_, List.getElem_mem h, hi⟩
    · rw [bucket, List.getD_eq_default _ _ (le_of_not_lt h)] at hi
      simp at hi

theorem getD_map_sortDedup (bs : List (List CellIndex)) (i : Nat) :
    (bs.map sortDedup).getD i [] = sortDedup (bs.getD i []) := by
  by_cases h : i < bs.length
  · rw [List.getD_eq_getElem _ _ (by simpa using h), List.getD_eq_getElem _ _ h,
      List.getElem_map]
  · rw [List.getD_eq_default _ _ (by simpa using le_of_not_lt h),
      List.getD_eq_default _ _ (le_of_not_lt h)]
    rfl

theorem mem_flatten_map_sortDedup {bs : List (List CellIndex)} {x : CellIndex} :
    x ∈ (bs.map sortDedup).flatten ↔ x ∈ bs.flatten := by
  rw [List.mem_flatten, List.mem_flatten]
  constructor
  · rintro ⟨l, hl, hxl⟩
    obtain ⟨v, hv, rfl⟩ := List.mem_map.mp hl
    exact ⟨v, hv, mem_sortDedup.mp hxl⟩
  · rintro ⟨v, hv, hxv⟩
    exact ⟨sortDedup v, List.mem_map_of_mem _ hv, mem_sortDedup.mpr hxv⟩

theorem bucketsInvFrom_map_sortDedup {k : Nat} {bs : List (List CellIndex)}
    (h : BucketsInvFrom k bs) : BucketsInvFrom k (bs.map sortDedup) := by
  intro j hj c hc
  rw [List.length_map] at hj
  rw [List.getElem_map] at hc
  exact h j hj c (mem_sortDedup.mp hc)

@[simp] theorem dedup_modified (cov : CellCoverage) (s p : Bool) :
    (cov.dedup s p).modified_resolutions = cov.modified_resolutions := rfl

theorem dedup_ff_buckets (cov : CellCoverage) (s : Bool) :
    (cov.dedup s false).cells_by_resolution = cov.cells_by_resolution.map sortDedup := by
  simp [dedup]

/-- The bucket list produced by `dedup`, as a plain conditional. -/
theorem dedup_buckets_eq (cov : CellCoverage) (s p : Bool) :
    (cov.dedup s p).cells_by_resolution =
      if (p && decide (1 < (cov.cells_by_resolution.map sortDedup).countP
          (fun v => !v.isEmpty))) = true
      then retainPass [] (cov.cells_by_resolution.map sortDedup)
      else cov.cells_by_resolution.map sortDedup := rfl

theorem dedup_bucket_subset {cov : CellCoverage} {s p : Bool} {i : Nat} {c : CellIndex}
    (hc : c ∈ (cov.dedup s p).bucket i) : c ∈ cov.bucket i := by
  rw [bucket, dedup_buckets_eq] at hc
  set bs := cov.cells_by_resolution.map sortDedup with hbs
  have hmem : c ∈ bs.getD i [] := by
    by_cases hcond : (p && decide (1 < bs.countP (fun v => !v.isEmpty))) = true
    · rw [if_pos hcond] at hc
      by_cases hi : i < (retainPass [] bs).length
      · rw [List.getD_eq_getElem _ _ hi] at hc
        have hlen : i < bs.length := by rw [← retainPass_length [] bs]; exact hi
        have hsub := retainPass_getElem_sublist bs [] i hi hlen
        rw [List.getD_eq_getElem _ _ hlen]
        exact hsub.mem hc
      · rw [List.getD_eq_default _ _ (le_of_not_lt hi)] at hc
        simp at hc
    · rw [if_neg hcond] at hc
      exact hc
  rw [hbs, getD_map_sortDedup] at hmem
  exact mem_sortDedup.mp hmem

theorem dedup_inv {cov : CellCoverage} (hinv : Inv cov) (s p : Bool) :
    Inv (cov.dedup s p) :=
  fun i c hc => hinv i c (dedup_bucket_subset hc)

theorem dedup_cells_subset {cov : CellCoverage} {s p : Bool} {c : CellIndex}
    (hc : c ∈ (cov.dedup s p).compacted_iter) : c ∈ cov.compacted_iter := by
  obtain ⟨i, hi⟩ := mem_compacted_iter.mp hc
  exact mem_compacted_iter.mpr ⟨i, dedup_bucket_subset hi⟩

theorem dedup_covered {cov : CellCoverage} {c : CellIndex} (h : Covered cov c)
    (s p : Bool) : Covered (cov.dedup s p) c := by
  obtain ⟨q, hq, hanc⟩ := h
  unfold Covered
  rw [compacted_iter, dedup_buckets_eq]
  set bs := cov.cells_by_resolution.map sortDedup with hbs
  by_cases hcond : (p && decide (1 < bs.countP (fun v => !v.isEmpty))) = true
  · rw [if_pos hcond]
    have := retainPass_covered bs [] c
      ⟨q, Or.inr (mem_flatten_map_sortDedup.mpr hq), hanc⟩
    obtain ⟨p', hp', hanc'⟩ := this
    rcases hp' with hp' | hp'
    · simp at hp'
    · exact ⟨p', hp', hanc'⟩
  · rw [if_neg hcond]
    exact ⟨q, mem_flatten_map_sortDedup.mpr hq, hanc⟩

theorem two_nonempty_lt_countP {α : Type} (bs : List (List α)) :
    ∀ (i j : Nat), i < j → (hj : j < bs.length) → (hi : i < bs.length) →
      bs[i] ≠ [] → bs[j] ≠ [] → 1 < bs.countP (fun v => !v.isEmpty) := by
  induction bs with
  | nil => intro i j _ hj; simp at hj
  | cons v rest ih =>
    intro i j hij hj hi hne_i hne_j
    cases i with
    | zero =>
      cases j with
      | zero => omega
      | succ j' =>
        have hj' : j' < rest.length := by simpa using hj
        have hv : v ≠ [] := by simpa using hne_i
        have hrestj : rest[j'] ≠ [] := by simpa using hne_j
        have hpos : 0 < rest.countP (fun v => !v.isEmpty) := by
          rw [List.countP_pos]
          exact ⟨rest[j'], List.getElem_mem hj', by simp [hrestj]⟩
        have hvb : (!v.isEmpty) = true := by simp [hv]
        rw [List.countP_cons, if_pos hvb]
        omega
    | succ i' =>
      cases j with
      | zero => omega
      | succ j' =>
        have hi' : i' < rest.length := by simpa using hi
        have hj' : j' < rest.length := by simpa using hj
        have := ih i' j' (by omega) hj' hi'
          (by simpa using hne_i) (by simpa using hne_j)
        rw [List.countP_cons]
        omega

theorem dedup_tt_no_ancestor {cov : CellCoverage} (hinv : Inv cov) (s : Bool)
    {a b : CellIndex} (ha : a ∈ (cov.dedup s true).compacted_iter)
    (hb : b ∈ (cov.dedup s true).compacted_iter)
    (hstrict : a.isStrictAncestorOf b) : False := by
  rw [compacted_iter, dedup_buckets_eq] at ha hb
  set bs := cov.cells_by_resolution.map sortDedup with hbs
  have hinv0 : BucketsInvFrom 0 bs :=
    bucketsInvFrom_map_sortDedup (inv_iff_bucketsInvFrom.mp hinv)
  by_cases hcond : (true && decide (1 < bs.countP (fun v => !v.isEmpty))) = true
  · rw [if_pos hcond] at ha hb
    exact retainPass_no_ancestor bs [] 0 hinv0 (by simp) b hb a hstrict (Or.inr ha)
  · rw [if_neg hcond] at ha hb
    obtain ⟨la, hla, hala⟩ := List.mem_flatten.mp ha
    obtain ⟨ia, hia, rfl⟩ := List.mem_iff_getElem.mp hla
    obtain ⟨lb, hlb, hblb⟩ := List.mem_flatten.mp hb
    obtain ⟨ib, hib, rfl⟩ := List.mem_iff_getElem.mp hlb
    have hra : a.resolution = ia := by simpa using hinv0 ia hia a hala
    have hrb : b.resolution = ib := by simpa using hinv0 ib hib b hblb
    have hlt : ia < ib := by have := hstrict.resolution_lt; omega
    have := two_nonempty_lt_countP bs ia ib hlt hib hia
      (List.ne_nil_of_mem hala) (List.ne_nil_of_mem hblb)
    simp only [Bool.true_and, decide_eq_true_eq] at hcond
    exact hcond this

/-- A cell with no strict ancestor among the stored cells survives `dedup`. -/
theorem dedup_mem_of_no_ancestor {cov : CellCoverage} (hinv : Inv cov) (s p : Bool)
    {c : CellIndex} (hc : c ∈ cov.compacted_iter)
    (hnoanc : ∀ a ∈ cov.compacted_iter, ¬ a.isStrictAncestorOf c) :
    c ∈ (cov.dedup s p).compacted_iter := by
  rw [compacted_iter, dedup_buckets_eq]
  set bs := cov.cells_by_resolution.map sortDedup with hbs
  have hinv0 : BucketsInvFrom 0 bs :=
    bucketsInvFrom_map_sortDedup (inv_iff_bucketsInvFrom.mp hinv)
  have hcbs : c ∈ bs.flatten := mem_flatten_map_sortDedup.mpr hc
  by_cases hcond : (p && decide (1 < bs.countP (fun v => !v.isEmpty))) = true
  · rw [if_pos hcond]
    refine retainPass_mem_of_no_ancestor bs [] 0 c hinv0 hcbs (by simp) ?_
    intro a ha
    exact hnoanc a (mem_flatten_map_sortDedup.mp ha)
  · rw [if_neg hcond]
    exact hcbs

/-- Every bucket produced by `dedup` is strictly sorted (hence duplicate-free). -/
theorem dedup_bucket_pairwise (cov : CellCoverage) (s p : Bool) (i : Nat) :
    ((cov.dedup s p).bucket i).Pairwise (· < ·) := by
  rw [bucket, dedup_buckets_eq]
  set bs := cov.cells_by_resolution.map sortDedup with hbs
  have hsorted : ∀ (j : Nat), (bs.getD j []).Pairwise (· < ·) := by
    intro j
    rw [hbs, getD_map_sortDedup]
    exact sortDedup_pairwise_lt _
  by_cases hcond : (p && decide (1 < bs.countP (fun v => !v.isEmpty))) = true
  · rw [if_pos hcond]
    by_cases hi : i < (retainPass [] bs).length
    · rw [List.getD_eq_getElem _ _ hi]
      have hlen : i < bs.length := by rw [← retainPass_length [] bs]; exact hi
      refine List.Pairwise.sublist (retainPass_getElem_sublist bs [] i hi hlen) ?_
      have := hsorted i
      rwa [List.getD_eq_getElem _ _ hlen] at this
    · rw [List.getD_eq_default _ _ (le_of_not_lt hi)]
      simp
  · rw [if_neg hcond]
    exact hsorted i

/-- When every bucket is already strictly sorted and no stored cell is a
strict ancestor of another, `dedup` changes nothing. -/
theorem dedup_eq_self {cov : CellCoverage}
    (hsorted : ∀ (i : Nat), (cov.bucket i).Pairwise (· < ·))
    (hinv : Inv cov)
    (hnopair : ∀ a b, a ∈ cov.compacted_iter → b ∈ cov.compacted_iter →
      ¬ a.isStrictAncestorOf b)
    (s p : Bool) : cov.dedup s p = cov := by
  have hmap : cov.cells_by_resolution.map sortDedup = cov.cells_by_resolution := by
    apply List.ext_getElem (by simp)
    intro n h₁ h₂
    rw [List.getElem_map]
    apply sortDedup_eq_self
    have := hsorted n
    rwa [bucket, List.getD_eq_getElem _ _ h₂] at this
  have hbuckets : (cov.dedup s p).cells_by_resolution = cov.cells_by_resolution := by
    rw [dedup_buckets_eq, hmap]
    split
    · apply retainPass_eq_self cov.cells_by_resolution [] 0
        (inv_iff_bucketsInvFrom.mp hinv) (by simp)
      intro a b ha hb
      rcases ha with ha | ha
      · simp at ha
      · exact hnopair a b ha hb
    · rfl
  cases cov with
  | mk m c =>
    rw [show (CellCoverage.mk m c).dedup s p =
      CellCoverage.mk ((CellCoverage.mk m c).dedup s p).modified_resolutions
        ((CellCoverage.mk m c).dedup s p).cells_by_resolution from rfl]
    rw [dedup_modified, hbuckets]

theorem inv_empty : Inv empty := by
  intro i c hc
  have : empty.bucket i = [] := by
    unfold empty bucket
    by_cases h : i < 16
    · rw [List.getD_eq_getElem _ _ (by simpa using h), List.getElem_replicate]
    · exact List.getD_eq_default _ _ (by simpa using le_of_not_lt h)
  rw [this] at hc
  simp at hc

theorem inv_insert {cov : CellCoverage} (hwf : WF cov) (hinv : Inv cov) (c : CellIndex) :
    Inv (cov.insert c) := by
  intro i x hx
  rw [bucket_insert hwf] at hx
  by_cases hci : c.resolution = i
  · rw [if_pos hci] at hx
    rcases List.mem_append.mp hx with hx | hx
    · exact hinv i x hx
    · rw [List.mem_singleton.mp hx]
      exact hci
  · rw [if_neg hci] at hx
    exact hinv i x hx

theorem covered_insert {cov : CellCoverage} (hwf : WF cov) {x : CellIndex}
    (h : Covered cov x) (c : CellIndex) : Covered (cov.insert c) x := by
  obtain ⟨p, hp, hanc⟩ := h
  obtain ⟨i, hi⟩ := mem_compacted_iter.mp hp
  exact ⟨p, mem_compacted_iter.mpr ⟨i, bucket_insert_subset hwf c hi⟩, hanc⟩

theorem covered_insert_self {cov : CellCoverage} (hwf : WF cov) (c : CellIndex) :
    Covered (cov.insert c) c := by
  refine ⟨c, mem_compacted_iter.mpr ⟨c.resolution, ?_⟩, CellIndex.ancestorOrSelf.refl c⟩
  rw [bucket_insert_self hwf]
  exact List.mem_append_right _ (List.mem_singleton.mpr rfl)

theorem inv_foldl_insert (out : List CellIndex) :
    ∀ {base : CellCoverage}, WF base → Inv base → Inv (out.foldl insert base) := by
  induction out with
  | nil => intro base _ hinv; exact hinv
  | cons c rest ih =>
    intro base hwf hinv
    exact ih (wf_insert hwf c) (inv_insert hwf hinv c)

theorem covered_foldl_insert (out : List CellIndex) :
    ∀ {base : CellCoverage}, WF base → ∀ {x : CellIndex}, Covered base x →
      Covered (out.foldl insert base) x := by
  induction out with
  | nil => intro base _ x h; exact h
  | cons c rest ih =>
    intro base hwf x h
    exact ih (wf_insert hwf c) (covered_insert hwf h c)

theorem covered_foldl_insert_of_mem (out : List CellIndex) :
    ∀ {base : CellCoverage}, WF base → ∀ {q : CellIndex}, q ∈ out →
      Covered (out.foldl insert base) q := by
  induction out with
  | nil => intro base _ q hq; simp at hq
  | cons c rest ih =>
    intro base hwf q hq
    rcases List.mem_cons.mp hq with rfl | hq
    · exact covered_foldl_insert rest (wf_insert hwf q) (covered_insert_self hwf q)
    · exact ih (wf_insert hwf c) hq

theorem bucket_set_nil (cov : CellCoverage) (r i : Nat) :
    ({ cov with cells_by_resolution := cov.cells_by_resolution.set r [] } :
      CellCoverage).bucket i = if i = r then [] else cov.bucket i := by
  unfold bucket
  simp only
  by_cases hi : i < cov.cells_by_resolution.length
  · rw [List.getD_eq_getElem _ _ (by simpa [List.length_set] using hi), List.getElem_set]
    by_cases hir : i = r
    · rw [if_pos hir, if_pos (hir.symm)]
    · rw [if_neg hir, if_neg (fun h => hir h.symm), List.getD_eq_getElem _ _ hi]
  · rw [List.getD_eq_default _ _ (by simpa [List.length_set] using le_of_not_lt hi),
      List.getD_eq_default _ _ (le_of_not_lt hi)]
    split <;> rfl

theorem inv_compactStep {cov : CellCoverage} (hwf : WF cov) (hinv : Inv cov) (r : Nat) :
    Inv (cov.compactStep r) := by
  apply inv_foldl_insert
  · exact ⟨hwf.1, by simp [List.length_set, hwf.2]⟩
  · intro i x hx
    rw [bucket_set_nil] at hx
    by_cases hir : i = r
    · rw [if_pos hir] at hx; simp at hx
    · rw [if_neg hir] at hx; exact hinv i x hx

theorem covered_compactStep {cov : CellCoverage} (hwf : WF cov) {x : CellIndex}
    (h : Covered cov x) (r : Nat) : Covered (cov.compactStep r) x := by
  obtain ⟨p, hp, hanc⟩ := h
  obtain ⟨i, hi⟩ := mem_compacted_iter.mp hp
  have hwftaken : WF ({ cov with cells_by_resolution := cov.cells_by_resolution.set r [] } :
      CellCoverage) := ⟨hwf.1, by simp [List.length_set, hwf.2]⟩
  by_cases hir : i = r
  · subst hir
    have hpsd : p ∈ sortDedup (cov.bucket i) := mem_sortDedup.mpr hi
    obtain ⟨q, hq, hqa⟩ := CellIndex.compactCells_covers i (sortDedup (cov.bucket i)) p hpsd
    obtain ⟨p', hp', hp'a⟩ := covered_foldl_insert_of_mem _ hwftaken hq
    exact ⟨p', hp', (hp'a.trans hqa).trans hanc⟩
  · apply covered_foldl_insert _ hwftaken
    refine ⟨p, mem_compacted_iter.mpr ⟨i, ?_⟩, hanc⟩
    rw [bucket_set_nil, if_neg hir]
    exact hi

theorem inv_foldl_compactStep (idxs : List Nat) :
    ∀ {base : CellCoverage}, WF base → Inv base → Inv (idxs.foldl compactStep base) := by
  induction idxs with
  | nil => intro base _ hinv; exact hinv
  | cons i rest ih =>
    intro base hwf hinv
    exact ih (wf_compactStep hwf i) (inv_compactStep hwf hinv i)

theorem covered_foldl_compactStep (idxs : List Nat) :
    ∀ {base : CellCoverage}, WF base → ∀ {x : CellIndex}, Covered base x →
      Covered (idxs.foldl compactStep base) x := by
  induction idxs with
  | nil => intro base _ x h; exact h
  | cons i rest ih =>
    intro base hwf x h
    exact ih (wf_compactStep hwf i) (covered_compactStep hwf h i)

theorem inv_compact {cov : CellCoverage} (hwf : WF cov) (hinv : Inv cov) :
    Inv cov.compact := by
  unfold compact
  cases hfind : (List.range 16).reverse.find?
      (fun i => (cov.dedup false false).modified_resolutions.getD i false) with
  | none => exact dedup_inv (dedup_inv hinv false false) true true
  | some r =>
    apply dedup_inv _ true true
    intro i c hc
    exact inv_foldl_compactStep _ (wf_dedup hwf false false)
      (dedup_inv hinv false false) i c hc

theorem covered_compact {cov : CellCoverage} (hwf : WF cov) {x : CellIndex}
    (h : Covered cov x) : Covered cov.compact x := by
  unfold compact
  cases hfind : (List.range 16).reverse.find?
      (fun i => (cov.dedup false false).modified_resolutions.getD i false) with
  | none => exact dedup_covered (dedup_covered h false false) true true
  | some r =>
    apply dedup_covered _ true true
    exact covered_foldl_compactStep ((List.range (r + 1)).reverse)
      (wf_dedup hwf false false) (dedup_covered h false false)

theorem getD_replicate_false (i : Nat) :
    (List.replicate 16 false).getD i false = false := by
  by_cases h : i < 16
  · rw [List.getD_eq_getElem _ _ (by simpa using h), List.getElem_replicate]
  · exact List.getD_eq_default _ _ (by simpa using le_of_not_lt h)

/-- After `compact`, no resolution is marked modified. -/
theorem compact_find?_none (cov : CellCoverage) :
    (List.range 16).reverse.find?
      (fun i => cov.compact.modified_resolutions.getD i false) = none := by
  unfold compact
  cases hfind : (List.range 16).reverse.find?
      (fun i => (cov.dedup false false).modified_resolutions.getD i false) with
  | none => exact hfind
  | some r =>
    rw [List.find?_eq_none]
    intro x _
    rw [dedup_modified]
    simp only
    rw [getD_replicate_false]
    simp

theorem mem_bucket_foldl_insert (out : List CellIndex) :
    ∀ {base : CellCoverage}, WF base → ∀ {c : CellIndex},
      (c ∈ out ∨ c ∈ base.bucket c.resolution) →
      c ∈ (out.foldl insert base).bucket c.resolution := by
  induction out with
  | nil =>
    intro base _ c h
    rcases h with h | h
    · simp at h
    · exact h
  | cons x rest ih =>
    intro base hwf c h
    apply ih (wf_insert hwf x)
    rcases h with h | h
    · rcases List.mem_cons.mp h with rfl | h
      · refine Or.inr ?_
        rw [bucket_insert_self hwf]
        exact List.mem_append_right _ (List.mem_singleton.mpr rfl)
      · exact Or.inl h
    · exact Or.inr (bucket_insert_subset hwf x h)

theorem ofList_inv (cells : List CellIndex) : Inv (ofList cells) :=
  inv_foldl_insert cells wf_empty inv_empty

theorem ofList_mem_bucket {cells : List CellIndex} {c : CellIndex} (hc : c ∈ cells) :
    c ∈ (ofList cells).bucket c.resolution :=
  mem_bucket_foldl_insert cells wf_empty (Or.inl hc)

theorem ofList_covered {cells : List CellIndex} {c : CellIndex} (hc : c ∈ cells) :
    Covered (ofList cells) c :=
  ⟨c, mem_compacted_iter.mpr ⟨c.resolution, ofList_mem_bucket hc⟩,
    CellIndex.ancestorOrSelf.refl c⟩

/-- Soundness of `covers`: a covered cell is reported as covered. -/
theorem covers_of_covered {cov : CellCoverage} (hinv : Inv cov) {c : CellIndex}
    (h : Covered cov c) : cov.covers c = true := by
  obtain ⟨p, hp, hanc⟩ := h
  obtain ⟨i, hi⟩ := mem_compacted_iter.mp hp
  have hres : p.resolution = i := hinv i p hi
  rw [covers, List.any_eq_true]
  refine ⟨p.resolution, List.mem_range.mpr (by have := hanc.res_le_of_anc; omega), ?_⟩
  rw [← hanc.eq_parentAt]
  simp only [decide_eq_true_eq]
  rw [hres]
  exact hi

/-- Completeness of `covers`: a cell reported covered has a stored
ancestor-or-self. -/
theorem covered_of_covers {cov : CellCoverage} {c : CellIndex}
    (h : cov.covers c = true) : Covered cov c := by
  rw [covers, List.any_eq_true] at h
  obtain ⟨r, _, hmem⟩ := h
  simp only [decide_eq_true_eq] at hmem
  exact ⟨CellIndex.parentAt r c, mem_compacted_iter.mpr ⟨r, hmem⟩,
    CellIndex.parentAt_ancestorOrSelf r c⟩

/-- Models `compact` always ends in a `dedup(true, true)` of some container that
satisfies the bucket invariant. -/
theorem compact_exists_inner {cov : CellCoverage} (hwf : WF cov) (hinv : Inv cov) :
    ∃ inner : CellCoverage, Inv inner ∧ cov.compact = inner.dedup true true := by
  unfold compact
  cases hfind : (List.range 16).reverse.find?
      (fun i => (cov.dedup false false).modified_resolutions.getD i false) with
  | none => exact ⟨cov.dedup false false, dedup_inv hinv false false, rfl⟩
  | some r =>
    refine ⟨_, ?_, rfl⟩
    intro i c hc
    exact inv_foldl_compactStep _ (wf_dedup hwf false false)
      (dedup_inv hinv false false) i c hc

theorem inv_append {cov other : CellCoverage} (hcov : Inv cov) (hother : Inv other) :
    Inv (cov.append other) := by
  intro i c hc
  by_cases hi : i < 16
  · rw [bucket_append_lt _ _ hi] at hc
    rcases List.mem_append.mp hc with hc | hc
    · exact hcov i c hc
    · exact hother i c hc
  · rw [bucket_append_ge _ _ (le_of_not_lt hi)] at hc
    simp at hc

theorem inv_finalize {cov : CellCoverage} (hwf : WF cov) (hinv : Inv cov) (b : Bool) :
    Inv (cov.finalize b) := by
  unfold finalize
  split
  · exact inv_compact hwf hinv
  · exact dedup_inv hinv true true

theorem flatten_pairwise_res (bs : List (List CellIndex)) :
    ∀ (k : Nat), BucketsInvFrom k bs →
      bs.flatten.Pairwise (fun a b => a.resolution ≤ b.resolution) := by
  induction bs with
  | nil => intro k _; simp
  | cons v rest ih =>
    intro k hinv
    obtain ⟨hv, hrest⟩ := bucketsInvFrom_cons.mp hinv
    rw [List.flatten_cons, List.pairwise_append]
    refine ⟨?_, ih (k + 1) hrest, ?_⟩
    · rw [List.pairwise_iff_forall_sublist]
      intro a b hsub
      have ha : a ∈ v := hsub.mem (List.mem_cons_self a [b])
      have hb : b ∈ v := hsub.mem (List.mem_cons_of_mem a (List.mem_cons_self b []))
      rw [hv a ha, hv b hb]
    · intro a ha b hb
      rw [hv a ha]
      have := bucketsInvFrom_res_ge hrest b hb
      omega

/-- With the bucket invariant, `compacted_iter` yields cells in
non-decreasing resolution order. -/
theorem compacted_iter_sorted {cov : CellCoverage} (hinv : Inv cov) :
    cov.compacted_iter.Pairwise (fun a b => a.resolution ≤ b.resolution) :=
  flatten_pairwise_res cov.cells_by_resolution 0 (inv_iff_bucketsInvFrom.mp hinv)

end CellCoverage

/-!
## Geometry model (`util.rs`)

Geographic `f64` coordinates are modelled as `ℚ`.  `geo_types::Rect` stores
normalized corners: `Rect::new` takes the component-wise min/max of the two
corner coordinates.
-/

structure Coord where
  x : ℚ
  y : ℚ
deriving DecidableEq

structure Rect where
  min : Coord
  max : Coord
deriving DecidableEq

/-- Models `Rect::new`: normalize the two corners component-wise. -/
def Rect.new (c1 c2 : Coord) : Rect :=
  ⟨⟨Min.min c1.x c2.x, Min.min c1.y c2.y⟩, ⟨Max.max c1.x c2.x, Max.max c1.y c2.y⟩⟩

/-- Truncation toward zero, as used by Rust's `%` on `f64`. -/
def ratTrunc (q : ℚ) : ℤ := if q < 0 then ⌈q⌉ else ⌊q⌋

/-- Rust's `%` remainder (sign of the dividend): `a - b * trunc (a / b)`. -/
def rustRem (a b : ℚ) : ℚ := a - b * (ratTrunc (a / b) : ℚ)

/-- Models `normalize_longitude`: `((lon + 540) % 360) - 180`. -/
def normalize_longitude (longitude : ℚ) : ℚ :=
  rustRem (longitude + 540) 360 - 180

structure SplittedRect where
  rect : Rect
  difference_due_to_antimeridian_split : ℚ
deriving DecidableEq

/-- Models `split_rect_at_antimeridian` from `util.rs`. -/
def split_rect_at_antimeridian (rect : Rect) : List SplittedRect :=
  let min_x_normalized := normalize_longitude rect.min.x
  let max_x_normalized := normalize_longitude rect.max.x
  if min_x_normalized < max_x_normalized then
    [⟨rect, 0⟩]
  else
    [⟨Rect.new ⟨-180, rect.min.y⟩ ⟨max_x_normalized, rect.max.y⟩,
      max_x_normalized - rect.max.x⟩,
     ⟨Rect.new ⟨min_x_normalized, rect.min.y⟩ ⟨180, rect.max.y⟩,
      min_x_normalized - rect.min.x⟩]

/-!
## Resolution selection (`resolution.rs`)

The `MinDiff` arm of `nearest_h3_resolution` is modelled as a scan over
resolutions 0‥15.  The areas involved (`area_m2` of the cell containing the
array's center, and the mean pixel area from the spherical area estimator)
are transcendental `f64` computations performed by external code; they enter
the scan only through comparisons, so they are abstracted as a function
`cellArea : Nat → ℚ` and a value `area_pixel : ℚ`.
-/

/-- The absolute difference computed in the loop body
(`if area_h3_index > area_pixel { area_h3_index - area_pixel } else { ... }`). -/
def areaDifference (cellArea : Nat → ℚ) (area_pixel : ℚ) (h3_res : Nat) : ℚ :=
  if cellArea h3_res > area_pixel then cellArea h3_res - area_pixel
  else area_pixel - cellArea h3_res

/-- The `for h3_res in Resolution::range(Zero, Fifteen)` loop of
`nearest_h3_resolution` in `MinDiff` mode: `nearest` starts at resolution 0,
`area_difference` at `None`; on the first strict increase of the difference
the loop breaks with `h3_res.pred().unwrap_or(Zero)` (here `h3_res - 1` on
`Nat`); when the list is exhausted the current `nearest` is returned. -/
def minDiffGo (cellArea : Nat → ℚ) (area_pixel : ℚ) :
    List Nat → Option ℚ → Nat → Nat
  | [], _, nearest => nearest
  | h3_res :: rest, area_difference, nearest =>
    let new_area_difference := areaDifference cellArea area_pixel h3_res
    match area_difference with
    | some old_area_difference =>
      if old_area_difference < new_area_difference then
        h3_res - 1
      else
        minDiffGo cellArea area_pixel rest (some new_area_difference) nearest
    | none => minDiffGo cellArea area_pixel rest (some new_area_difference) nearest

/-- Models `nearest_h3_resolution` restricted to `ResolutionSearchMode::MinDiff`. -/
def nearest_h3_resolution_minDiff (cellArea : Nat → ℚ) (area_pixel : ℚ) : Nat :=
  minDiffGo cellArea area_pixel (List.range 16) none 0

/-!
## Arrays and the sparse region finder (`axis.rs`, `array.rs`)

`ndarray::ArrayView2` is modelled by its shape and an element function (the
function is only meaningful on in-range indices; `get` is the checked
accessor).  Slicing produces a re-based view, as `ndarray`'s `slice` does.
-/

inductive AxisOrder where
  | XY
  | YX
deriving DecidableEq

def AxisOrder.x_axis : AxisOrder → Nat
  | .XY => 0
  | .YX => 1

def AxisOrder.y_axis : AxisOrder → Nat
  | .XY => 1
  | .YX => 0

structure ArrayView2 (T : Type) where
  d0 : Nat
  d1 : Nat
  entry : Nat → Nat → T

namespace ArrayView2

/-- Models `a.shape()[axis]` for a two-dimensional view (axis 0 or 1). -/
def shape {T : Type} (a : ArrayView2 T) (axis : Nat) : Nat :=
  if axis = 0 then a.d0 else a.d1

/-- Models `arr.get([i, j])`: `Some` element when in bounds. -/
def get {T : Type} (a : ArrayView2 T) (coord : Nat × Nat) : Option T :=
  if coord.1 < a.d0 ∧ coord.2 < a.d1 then some (a.entry coord.1 coord.2) else none

/-- Models `a.slice(s![s..=e, ..])`: keep raw-axis-0 indices `s..=e`, re-based at 0. -/
def slice0 {T : Type} (a : ArrayView2 T) (s e : Nat) : ArrayView2 T :=
  ⟨e + 1 - s, a.d1, fun i j => a.entry (i + s) j⟩

/-- Models `a.slice(s![.., s..=e])`: keep raw-axis-1 indices `s..=e`, re-based at 0. -/
def slice1 {T : Type} (a : ArrayView2 T) (s e : Nat) : ArrayView2 T :=
  ⟨a.d0, e + 1 - s, fun i j => a.entry i (j + s)⟩

end ArrayView2

/-- Semantic x-extent of the array under the given axis order. -/
def xdim {T : Type} (order : AxisOrder) (a : ArrayView2 T) : Nat :=
  a.shape order.x_axis

/-- Semantic y-extent of the array under the given axis order. -/
def ydim {T : Type} (order : AxisOrder) (a : ArrayView2 T) : Nat :=
  a.shape order.y_axis

/-- Element at semantic coordinates `(x, y)` under the given axis order. -/
def semAt {T : Type} (order : AxisOrder) (a : ArrayView2 T) (x y : Nat) : T :=
  match order with
  | .XY => a.entry x y
  | .YX => a.entry y x

/-- Models `r0.iter().any(|v| v != nodata_value)` for the slice of `a` at index `i`
along `axis` (the slices produced by `axis_iter(Axis(axis))`). -/
def sliceOccupied {T : Type} [DecidableEq T] (a : ArrayView2 T) (axis : Nat)
    (nodata_value : T) (i : Nat) : Bool :=
  if axis = 0 then (List.range a.d1).any (fun j => decide (a.entry i j ≠ nodata_value))
  else (List.range a.d0).any (fun j => decide (a.entry j i ≠ nodata_value))

/-- The loop of `find_continuous_chunks_along_axis`: collapse consecutive
occupied slice indices into closed ranges; an open chunk at the end of the
iteration is flushed as `(begin, n - 1)`. -/
def chunksGo (n : Nat) (occupied : Nat → Bool) :
    List Nat → Option Nat → List (Nat × Nat)
  | [], none => []
  | [], some b => [(b, n - 1)]
  | pos :: rest, none =>
    if occupied pos then chunksGo n occupied rest (some pos)
    else chunksGo n occupied rest none
  | pos :: rest, some b =>
    if occupied pos then chunksGo n occupied rest (some b)
    else (b, pos - 1) :: chunksGo n occupied rest none

/-- Models `find_continuous_chunks_along_axis(a, axis, nodata_value)`. -/
def find_continuous_chunks_along_axis {T : Type} [DecidableEq T]
    (a : ArrayView2 T) (axis : Nat) (nodata_value : T) : List (Nat × Nat) :=
  chunksGo (a.shape axis) (sliceOccupied a axis nodata_value)
    (List.range (a.shape axis)) none

/-- Models `geo_types::Rect<usize>`; `Rect::new` normalizes the corners. -/
structure RectUsize where
  min : Nat × Nat
  max : Nat × Nat
deriving DecidableEq

def RectUsize.new (c1 c2 : Nat × Nat) : RectUsize :=
  ⟨(Min.min c1.1 c2.1, Min.min c1.2 c2.2), (Max.max c1.1 c2.1, Max.max c1.2 c2.2)⟩

/-- Models `find_boxes_containing_data(a, nodata_value, axis_order)`: coarse chunks
along the x axis, y chunks within each, then refined x chunks within each
`(x, y)` block; one rectangle (inclusive bounds, semantic `(x, y)` array
coordinates) per refined pair. -/
def find_boxes_containing_data {T : Type} [DecidableEq T] (a : ArrayView2 T)
    (nodata_value : T) (axis_order : AxisOrder) : List RectUsize :=
  (find_continuous_chunks_along_axis a axis_order.x_axis nodata_value).flatMap
    fun chunk_x_raw_indexes =>
      let sv := match axis_order with
        | .XY => a.slice0 chunk_x_raw_indexes.1 chunk_x_raw_indexes.2
        | .YX => a.slice1 chunk_x_raw_indexes.1 chunk_x_raw_indexes.2
      (find_continuous_chunks_along_axis sv axis_order.y_axis nodata_value).flatMap
        fun chunks_y_raw_indexes =>
          let sv2 := match axis_order with
            | .XY => (sv.slice0 0 (chunk_x_raw_indexes.2 - chunk_x_raw_indexes.1)).slice1
                chunks_y_raw_indexes.1 chunks_y_raw_indexes.2
            | .YX => (sv.slice0 chunks_y_raw_indexes.1 chunks_y_raw_indexes.2).slice1
                0 (chunk_x_raw_indexes.2 - chunk_x_raw_indexes.1)
          (find_continuous_chunks_along_axis sv2 axis_order.x_axis nodata_value).map
            fun chunks_x_indexes =>
              RectUsize.new
                (chunks_x_indexes.1 + chunk_x_raw_indexes.1, chunks_y_raw_indexes.1)
                (chunks_x_indexes.2 + chunk_x_raw_indexes.1, chunks_y_raw_indexes.2)

/-!
## Affine transform (`geo::AffineTransform`) and the conversion pipeline
(`array.rs`)
-/

/-- Models `geo::AffineTransform` (coefficients `a b xoff d e yoff`): maps
`(x, y)` to `(a x + b y + xoff, d x + e y + yoff)`. -/
structure AffineTransform where
  a : ℚ
  b : ℚ
  xoff : ℚ
  d : ℚ
  e : ℚ
  yoff : ℚ
deriving DecidableEq

namespace AffineTransform

def apply (t : AffineTransform) (c : Coord) : Coord :=
  ⟨t.a * c.x + t.b * c.y + t.xoff, t.d * c.x + t.e * c.y + t.yoff⟩

def determinant (t : AffineTransform) : ℚ := t.a * t.e - t.b * t.d

/-- Models `AffineTransform::inverse`: `None` when the determinant is zero. -/
def inverse (t : AffineTransform) : Option AffineTransform :=
  if t.determinant = 0 then none
  else some
    ⟨t.e / t.determinant, -t.b / t.determinant,
      (t.b * t.yoff - t.e * t.xoff) / t.determinant,
      -t.d / t.determinant, t.a / t.determinant,
      (t.d * t.xoff - t.a * t.yoff) / t.determinant⟩

end AffineTransform

/-- Models `transformed.x().floor() as usize`: floor, then Rust's saturating
float-to-integer cast (negative values become 0). -/
def floorAsUsize (q : ℚ) : Nat := (⌊q⌋).toNat

/-- The per-window cell loop of `convert_array_window`, recorded as the list
of `(value, cell)` insertions it performs into the chunk's per-value
coverage map.  `tilerCoverage` models the h3o `Tiler` built with
`ContainmentMode::ContainsCentroid` (`tiler.add(rect)` + `into_coverage()`),
and `cellCentroid` models `LatLng::from(cell)`; both are external h3o
computations.  A cell whose (offset-corrected, inverse-transformed,
floored) coordinate is out of bounds or holds the nodata value produces no
pair (`continue`), never an error. -/
def convert_array_window_pairs {T : Type} [DecidableEq T] (arr : ArrayView2 T)
    (window_box : Rect) (inverse_transform : AffineTransform)
    (axis_order : AxisOrder) (nodata_value : Option T)
    (tilerCoverage : Rect → List CellIndex)
    (cellCentroid : CellIndex → Coord) : List (T × CellIndex) :=
  (split_rect_at_antimeridian window_box).flatMap fun splitted_window_box =>
    (tilerCoverage splitted_window_box.rect).filterMap fun cell =>
      let cell_centroid := cellCentroid cell
      let transformed := inverse_transform.apply
        ⟨cell_centroid.x + splitted_window_box.difference_due_to_antimeridian_split,
          cell_centroid.y⟩
      let arr_coord := match axis_order with
        | .XY => (floorAsUsize transformed.x, floorAsUsize transformed.y)
        | .YX => (floorAsUsize transformed.y, floorAsUsize transformed.x)
      match arr.get arr_coord with
      | none => none
      | some value =>
        match nodata_value with
        | some nodata => if nodata = value then none else some (value, cell)
        | none => some (value, cell)

/-- Models `rects_with_data_without_nodata`: a regular grid of `rect_size`-sized
tiles covering the whole array (in semantic `(x, y)` coordinates;
`(len as f64 / rect_size as f64).ceil() as usize` is the exact ceiling
division for these magnitudes). -/
def rects_with_data_without_nodata (x_size y_size rect_size : Nat) : List RectUsize :=
  (List.range ((x_size + rect_size - 1) / rect_size)).flatMap fun r_x =>
    (List.range ((y_size + rect_size - 1) / rect_size)).map fun r_y =>
      RectUsize.new (r_x * rect_size, r_y * rect_size)
        (Min.min x_size ((r_x + 1) * rect_size), Min.min y_size ((r_y + 1) * rect_size))

/-- Models `H3Converter::to_h3` for a converter with no configured nodata value,
recorded as the flat list of `(value, cell)` insertions of all windows
(`None` when the transform is singular: `Error::TransformNotInvertible`).
The sparse (nodata) path differs only in which windows are tiled; the
per-window conversion is `convert_array_window_pairs` in both paths. -/
def to_h3_pairs {T : Type} [DecidableEq T] (arr : ArrayView2 T)
    (transform : AffineTransform) (axis_order : AxisOrder)
    (tilerCoverage : Rect → List CellIndex)
    (cellCentroid : CellIndex → Coord) : Option (List (T × CellIndex)) :=
  match transform.inverse with
  | none => none
  | some inverse_transform =>
    let x_size := xdim axis_order arr
    let y_size := ydim axis_order arr
    let rect_size := Max.max 10 (Min.min 100 (x_size / 10))
    let rects := rects_with_data_without_nodata x_size y_size rect_size
    some (rects.flatMap fun array_window =>
      let window_box := Rect.new
        (transform.apply ⟨(array_window.min.1 : ℚ), (array_window.min.2 : ℚ)⟩)
        (transform.apply ⟨(array_window.max.1 : ℚ), (array_window.max.2 : ℚ)⟩)
      convert_array_window_pairs arr window_box inverse_transform axis_order none
        tilerCoverage cellCentroid)

/-!
## Lemmas about the sparse region finder
-/

theorem chunksGo_nil_none (n : Nat) (occ : Nat → Bool) :
    chunksGo n occ [] none = [] := rfl

theorem chunksGo_nil_some (n : Nat) (occ : Nat → Bool) (b : Nat) :
    chunksGo n occ [] (some b) = [(b, n - 1)] := rfl

theorem chunksGo_cons_none (n : Nat) (occ : Nat → Bool) (pos : Nat) (rest : List Nat) :
    chunksGo n occ (pos :: rest) none =
      if occ pos then chunksGo n occ rest (some pos)
      else chunksGo n occ rest none := rfl

theorem chunksGo_cons_some (n : Nat) (occ : Nat → Bool) (pos : Nat) (rest : List Nat)
    (b : Nat) :
    chunksGo n occ (pos :: rest) (some b) =
      if occ pos then chunksGo n occ rest (some b)
      else (b, pos - 1) :: chunksGo n occ rest none := rfl

theorem chunksGo_covers (occ : Nat → Bool) (n : Nat) :
    ∀ (m k : Nat) (st : Option Nat) (i : Nat), k + m = n → i < n →
      ((k ≤ i ∧ i < k + m ∧ occ i = true) ∨ (∃ b, st = some b ∧ b ≤ i ∧ i < k)) →
      (∀ b, st = some b → b ≤ k) →
      ∃ p ∈ chunksGo n occ (List.range' k m) st, p.1 ≤ i ∧ i ≤ p.2 := by
  intro m
  induction m with
  | zero =>
    intro k st i hkm hi hcase hst
    rcases hcase with ⟨h1, h2, _⟩ | ⟨b, hb, hbi, hik⟩
    · omega
    · subst hb
      refine ⟨(b, n - 1), ?_, hbi, by omega⟩
      rw [show List.range' k 0 = [] from rfl, chunksGo_nil_some]
      exact List.mem_singleton.mpr rfl
  | succ m ih =>
    intro k st i hkm hi hcase hst
    rw [List.range'_succ]
    cases st with
    | none =>
      rw [chunksGo_cons_none]
      by_cases hok : occ k = true
      · rw [if_pos hok]
        refine ih (k + 1) (some k) i (by omega) hi ?_ ?_
        · rcases hcase with ⟨h1, h2, h3⟩ | ⟨b, hb, _, _⟩
          · by_cases hik : i = k
            · exact Or.inr ⟨k, rfl, by omega, by omega⟩
            · exact Or.inl ⟨by omega, by omega, h3⟩
          · exact absurd hb (by simp)
        · intro b hb
          injection hb with hb
          omega
      · rw [if_neg hok]
        refine ih (k + 1) none i (by omega) hi ?_ (by intro b hb; exact absurd hb (by simp))
        rcases hcase with ⟨h1, h2, h3⟩ | ⟨b, hb, _, _⟩
        · by_cases hik : i = k
          · rw [hik] at h3; exact absurd h3 hok
          · exact Or.inl ⟨by omega, by omega, h3⟩
        · exact absurd hb (by simp)
    | some b =>
      have hbk : b ≤ k := hst b rfl
      rw [chunksGo_cons_some]
      by_cases hok : occ k = true
      · rw [if_pos hok]
        refine ih (k + 1) (some b) i (by omega) hi ?_ ?_
        · rcases hcase with ⟨h1, h2, h3⟩ | ⟨b', hb', hbi', hik'⟩
          · by_cases hik : i = k
            · exact Or.inr ⟨b, rfl, by omega, by omega⟩
            · exact Or.inl ⟨by omega, by omega, h3⟩
          · injection hb' with hb'
            exact Or.inr ⟨b, rfl, by omega, by omega⟩
        · intro b' hb'
          injection hb' with hb'
          omega
      · rw [if_neg hok]
        rcases hcase with ⟨h1, h2, h3⟩ | ⟨b', hb', hbi', hik'⟩
        · by_cases hik : i = k
          · rw [hik] at h3; exact absurd h3 hok
          · obtain ⟨p, hp, hp1, hp2⟩ := ih (k + 1) none i (by omega) hi
              (Or.inl ⟨by omega, by omega, h3⟩)
              (by intro b' hb'; exact absurd hb' (by simp))
            exact ⟨p, List.mem_cons_of_mem _ hp, hp1, hp2⟩
        · injection hb' with heq
          subst heq
          exact ⟨(b, k - 1), List.mem_cons_self _ _, hbi', by omega⟩

theorem chunks_cover_occupied {n : Nat} {occ : Nat → Bool} {i : Nat}
    (hi : i < n) (hocc : occ i = true) :
    ∃ p ∈ chunksGo n occ (List.range n) none, p.1 ≤ i ∧ i ≤ p.2 := by
  rw [List.range_eq_range']
  exact chunksGo_covers occ n n 0 none i (by omega) hi
    (Or.inl ⟨by omega, by omega, hocc⟩) (by intro b hb; exact absurd hb (by simp))

theorem fcc_covers {T : Type} [DecidableEq T] (a : ArrayView2 T) (axis : Nat)
    (nodata : T) {i : Nat} (hi : i < a.shape axis)
    (hocc : sliceOccupied a axis nodata i = true) :
    ∃ p ∈ find_continuous_chunks_along_axis a axis nodata, p.1 ≤ i ∧ i ≤ p.2 :=
  chunks_cover_occupied hi hocc

/-!
## Lemmas about the MinDiff resolution scan
-/

theorem minDiffGo_cons_none (cellArea : Nat → ℚ) (area_pixel : ℚ) (h3_res : Nat)
    (rest : List Nat) (nearest : Nat) :
    minDiffGo cellArea area_pixel (h3_res :: rest) none nearest =
      minDiffGo cellArea area_pixel rest
        (some (areaDifference cellArea area_pixel h3_res)) nearest := rfl

theorem minDiffGo_cons_some (cellArea : Nat → ℚ) (area_pixel : ℚ) (h3_res : Nat)
    (rest : List Nat) (old : ℚ) (nearest : Nat) :
    minDiffGo cellArea area_pixel (h3_res :: rest) (some old) nearest =
      if old < areaDifference cellArea area_pixel h3_res then h3_res - 1
      else minDiffGo cellArea area_pixel rest
        (some (areaDifference cellArea area_pixel h3_res)) nearest := rfl

theorem minDiffGo_exhaust (cellArea : Nat → ℚ) (area_pixel : ℚ) :
    ∀ (m k nearest : Nat), k + m = 16 → 1 ≤ k →
      (∀ j, k ≤ j → j ≤ 15 →
        areaDifference cellArea area_pixel j ≤ areaDifference cellArea area_pixel (j - 1)) →
      minDiffGo cellArea area_pixel (List.range' k m)
        (some (areaDifference cellArea area_pixel (k - 1))) nearest = nearest := by
  intro m
  induction m with
  | zero => intro k nearest _ _ _; rfl
  | succ m ih =>
    intro k nearest hkm hk hmono
    rw [List.range'_succ, minDiffGo_cons_some]
    have hle := hmono k (by omega) (by omega)
    rw [if_neg (not_lt.mpr hle)]
    have : k = (k + 1) - 1 := by omega
    rw [this]
    exact ih (k + 1) nearest (by omega) (by omega)
      (fun j hj hj15 => hmono j (by omega) hj15)

theorem minDiffGo_break (cellArea : Nat → ℚ) (area_pixel : ℚ) :
    ∀ (m k K nearest : Nat), k + m = 16 → 1 ≤ k → k ≤ K → K ≤ 15 →
      (∀ j, k ≤ j → j < K →
        areaDifference cellArea area_pixel j ≤ areaDifference cellArea area_pixel (j - 1)) →
      areaDifference cellArea area_pixel (K - 1) < areaDifference cellArea area_pixel K →
      minDiffGo cellArea area_pixel (List.range' k m)
        (some (areaDifference cellArea area_pixel (k - 1))) nearest = K - 1 := by
  intro m
  induction m with
  | zero => intro k K nearest hkm hk hkK hK15 _ _; omega
  | succ m ih =>
    intro k K nearest hkm hk hkK hK15 hmono hbreak
    rw [List.range'_succ, minDiffGo_cons_some]
    by_cases hkKeq : k = K
    · subst hkKeq
      rw [if_pos hbreak]
    · have hle := hmono k (by omega) (by omega)
      rw [if_neg (not_lt.mpr hle)]
      have : k = (k + 1) - 1 := by omega
      rw [this]
      exact ih (k + 1) K nearest (by omega) (by omega) (by omega) hK15
        (fun j hj hjK => hmono j (by omega) hjK) hbreak

/-!
## Order-insensitivity machinery for the reduction step
-/

theorem perm_any {α : Type} (p : α → Bool) {l₁ l₂ : List α} (h : l₁.Perm l₂) :
    l₁.any p = l₂.any p := by
  rw [Bool.eq_iff_iff, List.any_eq_true, List.any_eq_true]
  constructor
  · rintro ⟨x, hx, hp⟩
    exact ⟨x, h.mem_iff.mp hx, hp⟩
  · rintro ⟨x, hx, hp⟩
    exact ⟨x, h.mem_iff.mpr hx, hp⟩

namespace CellCoverage

theorem eq_of_parts {u v : CellCoverage}
    (h1 : u.modified_resolutions = v.modified_resolutions)
    (h2 : u.cells_by_resolution = v.cells_by_resolution) : u = v := by
  cases u; cases v
  simp only at h1 h2
  rw [h1, h2]

theorem bucket_empty (i : Nat) : empty.bucket i = [] := by
  unfold empty bucket
  by_cases h : i < 16
  · rw [List.getD_eq_getElem _ _ (by simpa using h), List.getElem_replicate]
  · exact List.getD_eq_default _ _ (by simpa using le_of_not_lt h)

/-- Models `dedup` only looks at the modified flags and the sorted buckets. -/
theorem dedup_congr {cov₁ cov₂ : CellCoverage}
    (hm : cov₁.modified_resolutions = cov₂.modified_resolutions)
    (hb : cov₁.cells_by_resolution.map sortDedup = cov₂.cells_by_resolution.map sortDedup)
    (s p : Bool) : cov₁.dedup s p = cov₂.dedup s p := by
  apply eq_of_parts
  · rw [dedup_modified, dedup_modified, hm]
  · rw [dedup_buckets_eq, dedup_buckets_eq, hb]

theorem compact_congr {cov₁ cov₂ : CellCoverage}
    (hm : cov₁.modified_resolutions = cov₂.modified_resolutions)
    (hb : cov₁.cells_by_resolution.map sortDedup = cov₂.cells_by_resolution.map sortDedup) :
    cov₁.compact = cov₂.compact := by
  have hdff : cov₁.dedup false false = cov₂.dedup false false :=
    dedup_congr hm hb false false
  unfold compact
  rw [hdff]

theorem finalize_congr {cov₁ cov₂ : CellCoverage}
    (hm : cov₁.modified_resolutions = cov₂.modified_resolutions)
    (hb : cov₁.cells_by_resolution.map sortDedup = cov₂.cells_by_resolution.map sortDedup)
    (b : Bool) : cov₁.finalize b = cov₂.finalize b := by
  unfold finalize
  cases b with
  | true => simpa using compact_congr hm hb
  | false => simpa using dedup_congr hm hb true true

theorem listEq16 {α : Type} (m : List α) (d : α) (h : m.length = 16) :
    (List.range 16).map (fun j => m.getD j d) = m := by
  apply List.ext_getElem (by simp [h])
  intro n h1 h2
  have hn : n < 16 := by simpa using h1
  rw [List.getElem_map, List.getElem_range, List.getD_eq_getElem _ _ h2]

theorem getD_set_bool (m : List Bool) (r i : Nat) (hr : r < m.length) :
    (m.set r true).getD i false = if r = i then true else m.getD i false := by
  by_cases hi : i < m.length
  · rw [List.getD_eq_getElem _ _ (by simpa [List.length_set] using hi), List.getElem_set]
    by_cases hri : r = i
    · rw [if_pos hri, if_pos hri]
    · rw [if_neg hri, if_neg hri, List.getD_eq_getElem _ _ hi]
  · have hge : m.length ≤ i := le_of_not_lt hi
    rw [List.getD_eq_default _ _ (by simpa [List.length_set] using hge),
      List.getD_eq_default _ _ hge, if_neg (by omega)]

theorem foldl_insert_buckets (l : List CellIndex) :
    ∀ (cov : CellCoverage), WF cov →
      (l.foldl insert cov).cells_by_resolution =
        (List.range 16).map
          (fun i => cov.bucket i ++ l.filter (fun c => decide (c.resolution = i))) := by
  induction l with
  | nil =>
    intro cov hwf
    simp only [List.foldl_nil, List.filter_nil, List.append_nil]
    exact (listEq16 cov.cells_by_resolution [] hwf.2).symm
  | cons c rest ih =>
    intro cov hwf
    rw [List.foldl_cons, ih (cov.insert c) (wf_insert hwf c)]
    apply List.map_congr_left
    intro i hi
    rw [bucket_insert hwf c i, List.filter_cons]
    by_cases hci : c.resolution = i
    · rw [if_pos hci, if_pos (decide_eq_true hci), List.append_assoc, List.singleton_append]
    · rw [if_neg hci, if_neg (by simpa using hci)]

theorem foldl_insert_modified (l : List CellIndex) :
    ∀ (cov : CellCoverage), WF cov →
      (l.foldl insert cov).modified_resolutions =
        (List.range 16).map
          (fun i => cov.modified_resolutions.getD i false ||
            l.any (fun c => decide (c.resolution = i))) := by
  induction l with
  | nil =>
    intro cov hwf
    simp only [List.foldl_nil, List.any_nil, Bool.or_false]
    exact (listEq16 cov.modified_resolutions false hwf.1).symm
  | cons c rest ih =>
    intro cov hwf
    rw [List.foldl_cons, ih (cov.insert c) (wf_insert hwf c)]
    apply List.map_congr_left
    intro i hi
    have hset : (cov.insert c).modified_resolutions.getD i false =
        if c.resolution = i then true else cov.modified_resolutions.getD i false :=
      getD_set_bool cov.modified_resolutions c.resolution i
        (by rw [hwf.1]; exact resolution_lt_16 c)
    rw [hset, List.any_cons]
    by_cases hci : c.resolution = i
    · rw [if_pos hci, decide_eq_true hci]
      simp
    · rw [if_neg hci, show decide (c.resolution = i) = false by simpa using hci]
      simp

theorem ofList_buckets (l : List CellIndex) :
    (ofList l).cells_by_resolution =
      (List.range 16).map (fun i => l.filter (fun c => decide (c.resolution = i))) := by
  rw [ofList, foldl_insert_buckets l empty wf_empty]
  apply List.map_congr_left
  intro i _
  rw [bucket_empty, List.nil_append]

theorem ofList_modified (l : List CellIndex) :
    (ofList l).modified_resolutions =
      (List.range 16).map (fun i => l.any (fun c => decide (c.resolution = i))) := by
  rw [ofList, foldl_insert_modified l empty wf_empty]
  apply List.map_congr_left
  intro i _
  rw [show empty.modified_resolutions = List.replicate 16 false from rfl,
    getD_replicate_false, Bool.false_or]

theorem foldl_append_buckets (cs : List CellCoverage) :
    ∀ (cov : CellCoverage), cov.cells_by_resolution.length = 16 →
      (cs.foldl append cov).cells_by_resolution =
        (List.range 16).map
          (fun i => cov.bucket i ++ (cs.map (fun c => c.bucket i)).flatten) := by
  induction cs with
  | nil =>
    intro cov h
    simp only [List.foldl_nil, List.map_nil, List.flatten_nil, List.append_nil]
    exact (listEq16 cov.cells_by_resolution [] h).symm
  | cons c cs ih =>
    intro cov h
    rw [List.foldl_cons, ih (cov.append c) (by simp [append])]
    apply List.map_congr_left
    intro i hi
    rw [List.mem_range] at hi
    rw [bucket_append_lt cov c hi, List.map_cons, List.flatten_cons, List.append_assoc]

theorem foldl_append_modified (cs : List CellCoverage) :
    ∀ (cov : CellCoverage), cov.modified_resolutions.length = 16 →
      (cs.foldl append cov).modified_resolutions =
        (List.range 16).map
          (fun i => cov.modified_resolutions.getD i false ||
            cs.any (fun c => !(c.bucket i).isEmpty)) := by
  induction cs with
  | nil =>
    intro cov h
    simp only [List.foldl_nil, List.any_nil, Bool.or_false]
    exact (listEq16 cov.modified_resolutions false h).symm
  | cons c cs ih =>
    intro cov h
    rw [List.foldl_cons, ih (cov.append c) (by simp [append])]
    apply List.map_congr_left
    intro i hi
    rw [List.mem_range] at hi
    have hstep : (cov.append c).modified_resolutions.getD i false =
        (cov.modified_resolutions.getD i false || !(c.bucket i).isEmpty) := by
      rw [show (cov.append c).modified_resolutions = (List.range 16).map (fun j =>
        if (c.bucket j).isEmpty then cov.modified_resolutions.getD j false else true)
        from rfl, getD_map_range _ _ hi]
      cases hce : (c.bucket i).isEmpty <;> simp
    rw [hstep, List.any_cons, Bool.or_assoc]

end CellCoverage

/-!
## Concrete instances used to evaluate the model
-/

/-- The resolution-0 cell with base cell 0. -/
def cellRes0 : CellIndex := ⟨0, [], by simp⟩

/-- A resolution-1 child of `cellRes0` (digit 0). -/
def cellRes1 : CellIndex := ⟨0, [0], by simp⟩

/-- Another resolution-1 child of `cellRes0` (digit 1). -/
def cellRes1b : CellIndex := ⟨0, [1], by simp⟩

/-- A 3×1 raster with values 10, 20, 30 along raw axis 0. -/
def arrC1 : ArrayView2 Nat := ⟨3, 1, fun i _ => [10, 20, 30].getD i 0⟩

/-- A transform placing pixel x ∈ [0,3) at longitudes [179, 182): the raster's
frame extends past the antimeridian. -/
def transformC1 : AffineTransform := ⟨1, 0, 179, 0, 1, 0⟩

/-- The (fixed) centroid h3o reports for the test cell: longitude −179.5,
latitude 0.5. -/
def centroidC1 : CellIndex → Coord := fun _ => ⟨-359 / 2, 1 / 2⟩

/-- A tiler consistent with `ContainmentMode::ContainsCentroid`: it reports
the test cell exactly for rectangles containing its centroid. -/
def tilerC1 : Rect → List CellIndex := fun r =>
  if r.min.x ≤ -359 / 2 ∧ (-359 / 2 : ℚ) ≤ r.max.x ∧
      r.min.y ≤ 1 / 2 ∧ (1 / 2 : ℚ) ≤ r.max.y then
    [cellRes0]
  else []

/-- The per-value conversion pipeline of `to_h3` for one raster value: each
chunk's insertions are collected into a coverage and finalized early, the
chunk coverages are combined with `append`, and the combination is finalized. -/
def pipelinePerValue (b : Bool) (chunks : List (List CellIndex)) : CellCoverage :=
  ((chunks.map (fun l => (CellCoverage.ofList l).finalize b)).foldl
    CellCoverage.append CellCoverage.empty).finalize b

/-!
## Claim theorems
-/

/-- Claim C2: after `CellCoverage::finalize` with compaction requested
(equivalently after `compact()` succeeds), for every pair of distinct cells
`(a, b)` stored in the coverage neither is an ancestor of the other, and no
duplicate cell appears within any single resolution bucket. -/
theorem C2_ancestor_exclusivity_after_compaction (cov : CellCoverage)
    (hwf : cov.WF) (hinv : cov.Inv) :
    (∀ a b, a ∈ (cov.finalize true).compacted_iter →
      b ∈ (cov.finalize true).compacted_iter → a ≠ b →
      ¬ CellIndex.ancestorOrSelf a b) ∧
    (∀ i, ((cov.finalize true).bucket i).Nodup) := by
  have hft : cov.finalize true = cov.compact := by simp [CellCoverage.finalize]
  obtain ⟨inner, hinner, heq⟩ := CellCoverage.compact_exists_inner hwf hinv
  constructor
  · intro a b ha hb hne hanc
    rw [hft, heq] at ha hb
    exact CellCoverage.dedup_tt_no_ancestor hinner true ha hb ⟨hanc, hne⟩
  · intro i
    rw [hft, heq]
    exact (CellCoverage.dedup_bucket_pairwise inner true true i).imp ne_of_lt

theorem C2_witness :
    ¬ CellIndex.ancestorOrSelf cellRes1 cellRes1b ∧
    (((CellCoverage.ofList [cellRes1, cellRes1b]).finalize true).bucket 1).Nodup := by
  constructor
  · exact (C2_ancestor_exclusivity_after_compaction (CellCoverage.ofList [cellRes1, cellRes1b])
      (CellCoverage.wf_ofList _) (CellCoverage.ofList_inv _)).1 cellRes1 cellRes1b
      (by decide) (by decide) (by decide)
  · exact (C2_ancestor_exclusivity_after_compaction (CellCoverage.ofList [cellRes1, cellRes1b])
      (CellCoverage.wf_ofList _) (CellCoverage.ofList_inv _)).2 1

/-- Claim C5 (counterexample): `finalize(false)` calls `dedup(true, true)`,
which removes a stored cell whose ancestor is also stored: inserting a
resolution-0 cell and its resolution-1 child, the child is absent after
`finalize(false)` even though it is not an exact duplicate of any other
stored cell. -/
theorem C5_counterexample :
    cellRes1 ∈ (CellCoverage.ofList [cellRes0, cellRes1]).compacted_iter ∧
    cellRes1 ∉ ((CellCoverage.ofList [cellRes0, cellRes1]).finalize false).compacted_iter ∧
    cellRes1 ≠ cellRes0 := by decide

/-- Claim C5 (amended): when `CellCoverage::finalize` is called without
compaction it performs `dedup(true, true)`: exact duplicates are removed and,
additionally, every cell one of whose strict ancestors is also stored is
removed; every stored cell with no stored strict ancestor remains present,
and afterwards no stored cell is a strict ancestor of another. -/
theorem C5_finalize_without_compaction (cov : CellCoverage) (hinv : cov.Inv) :
    (∀ c ∈ cov.compacted_iter,
      (∀ a ∈ cov.compacted_iter, ¬ a.isStrictAncestorOf c) →
      c ∈ (cov.finalize false).compacted_iter) ∧
    (∀ a b, a ∈ (cov.finalize false).compacted_iter →
      b ∈ (cov.finalize false).compacted_iter → ¬ a.isStrictAncestorOf b) := by
  have hff : cov.finalize false = cov.dedup true true := by simp [CellCoverage.finalize]
  constructor
  · intro c hc hnoanc
    rw [hff]
    exact CellCoverage.dedup_mem_of_no_ancestor hinv true true hc hnoanc
  · intro a b ha hb hstrict
    rw [hff] at ha hb
    exact CellCoverage.dedup_tt_no_ancestor hinv true ha hb hstrict

theorem C5_witness :
    cellRes0 ∈ ((CellCoverage.ofList [cellRes0, cellRes1]).finalize false).compacted_iter := by
  exact (C5_finalize_without_compaction (CellCoverage.ofList [cellRes0, cellRes1])
    (CellCoverage.ofList_inv _)).1 cellRes0 (by decide) (by decide)

/-- Claim C6: for every sequence of cells inserted into a `CellCoverage` and
every inserted cell `c`, `covers(c)` returns true, both before `compact()` is
called and after `compact()` has completed. -/
theorem C6_covers_inserted_cells (cells : List CellIndex) :
    (∀ c ∈ cells, (CellCoverage.ofList cells).covers c = true) ∧
    (∀ c ∈ cells, (CellCoverage.ofList cells).compact.covers c = true) := by
  constructor
  · intro c hc
    exact CellCoverage.covers_of_covered (CellCoverage.ofList_inv cells)
      (CellCoverage.ofList_covered hc)
  · intro c hc
    exact CellCoverage.covers_of_covered
      (CellCoverage.inv_compact (CellCoverage.wf_ofList cells) (CellCoverage.ofList_inv cells))
      (CellCoverage.covered_compact (CellCoverage.wf_ofList cells)
        (CellCoverage.ofList_covered hc))

theorem C6_witness :
    (CellCoverage.ofList [cellRes1, cellRes1b]).covers cellRes1 = true ∧
    (CellCoverage.ofList [cellRes1, cellRes1b]).compact.covers cellRes1 = true :=
  ⟨(C6_covers_inserted_cells [cellRes1, cellRes1b]).1 cellRes1 (by decide),
   (C6_covers_inserted_cells [cellRes1, cellRes1b]).2 cellRes1 (by decide)⟩

/-- Claim C7: `compact()` is idempotent: calling `compact()` on a
`CellCoverage` on which `compact()` has already completed produces an
identical contained cell set (the whole container is unchanged). -/
theorem C7_compact_idempotent (cov : CellCoverage) (hwf : cov.WF) (hinv : cov.Inv) :
    cov.compact.compact = cov.compact := by
  obtain ⟨inner, hinner, heq⟩ := CellCoverage.compact_exists_inner hwf hinv
  have h1 : ∀ i, (cov.compact.bucket i).Pairwise (· < ·) := by
    intro i
    rw [heq]
    exact CellCoverage.dedup_bucket_pairwise inner true true i
  have h2 : cov.compact.Inv := CellCoverage.inv_compact hwf hinv
  have h3 : ∀ a b, a ∈ cov.compact.compacted_iter → b ∈ cov.compact.compacted_iter →
      ¬ a.isStrictAncestorOf b := by
    intro a b ha hb hstrict
    rw [heq] at ha hb
    exact CellCoverage.dedup_tt_no_ancestor hinner true ha hb hstrict
  have hfind := CellCoverage.compact_find?_none cov
  set X := cov.compact with hX
  have hff : X.dedup false false = X := CellCoverage.dedup_eq_self h1 h2 h3 false false
  show X.compact = X
  unfold CellCoverage.compact
  have hfind' : (List.range 16).reverse.find?
      (fun i => (X.dedup false false).modified_resolutions.getD i false) = none := by
    simp only [CellCoverage.dedup_modified]
    exact hfind
  rw [hfind']
  show (X.dedup false false).dedup true true = X
  rw [hff]
  exact CellCoverage.dedup_eq_self h1 h2 h3 true true

theorem C7_witness :
    (CellCoverage.ofList [cellRes0, cellRes1, cellRes1b]).compact.compact =
      (CellCoverage.ofList [cellRes0, cellRes1, cellRes1b]).compact :=
  C7_compact_idempotent (CellCoverage.ofList [cellRes0, cellRes1, cellRes1b])
    (CellCoverage.wf_ofList _) (CellCoverage.ofList_inv _)

/-- Claim C3: `split_rect_at_antimeridian` normalizes the rectangle's min-x
and max-x longitudes via `((lon + 540) % 360) - 180`; when the normalized min
is less than the normalized max it returns exactly the input rectangle with
offset 0, and otherwise exactly two rectangles: one from −180 to the
normalized max-x with offset `normalized max-x − original max-x`, and one
from the normalized min-x to 180 with offset
`normalized min-x − original min-x`. -/
theorem C3_split_rect_at_antimeridian (rect : Rect) :
    (normalize_longitude rect.min.x < normalize_longitude rect.max.x →
      split_rect_at_antimeridian rect = [⟨rect, 0⟩]) ∧
    (¬ normalize_longitude rect.min.x < normalize_longitude rect.max.x →
      split_rect_at_antimeridian rect =
        [⟨Rect.new ⟨-180, rect.min.y⟩ ⟨normalize_longitude rect.max.x, rect.max.y⟩,
          normalize_longitude rect.max.x - rect.max.x⟩,
         ⟨Rect.new ⟨normalize_longitude rect.min.x, rect.min.y⟩ ⟨180, rect.max.y⟩,
          normalize_longitude rect.min.x - rect.min.x⟩]) ∧
    (∀ lon : ℚ, normalize_longitude lon = rustRem (lon + 540) 360 - 180) := by
  refine ⟨?_, ?_, fun lon => rfl⟩
  · intro h
    simp only [split_rect_at_antimeridian]
    rw [if_pos h]
  · intro h
    simp only [split_rect_at_antimeridian]
    rw [if_neg h]

unseal Rat.add Rat.sub Rat.mul Rat.inv in
theorem C3_witness :
    split_rect_at_antimeridian ⟨⟨-185, 12⟩, ⟨-178, 23⟩⟩ =
      [⟨Rect.new ⟨-180, 12⟩ ⟨-178, 23⟩, 0⟩, ⟨Rect.new ⟨175, 12⟩ ⟨180, 23⟩, 360⟩] := by
  have h := (C3_split_rect_at_antimeridian ⟨⟨-185, 12⟩, ⟨-178, 23⟩⟩).2.1 (by decide)
  rw [h]
  decide

unseal Rat.add Rat.sub Rat.mul Rat.inv in
/-- Claim C4 (counterexample): with a cell-area sequence whose absolute
difference to the pixel area never increases across resolutions 0‥15, the
MinDiff scan exhausts the loop and returns resolution 0, not resolution 15
as the claim states. -/
theorem C4_counterexample :
    ((List.range 16).all (fun k => decide (k = 0 ∨
      areaDifference (fun r => (16 : ℚ) - r) 0 k ≤
        areaDifference (fun r => (16 : ℚ) - r) 0 (k - 1))) = true) ∧
    nearest_h3_resolution_minDiff (fun r => (16 : ℚ) - r) 0 = 0 ∧
    nearest_h3_resolution_minDiff (fun r => (16 : ℚ) - r) 0 ≠ 15 := by decide

/-- Claim C4 (amended): in MinDiff mode the scan over resolutions 0‥15
tracks the absolute difference between cell area and mean pixel area; at the
first resolution whose difference strictly exceeds the previous one it
returns the previous resolution; if the loop exhausts all 16 resolutions
without such an increase it returns resolution 0 (the initial value of the
result variable, never updated outside the early return). -/
theorem C4_minDiff_scan (cellArea : Nat → ℚ) (area_pixel : ℚ) :
    ((∀ j, 1 ≤ j → j ≤ 15 →
        areaDifference cellArea area_pixel j ≤ areaDifference cellArea area_pixel (j - 1)) →
      nearest_h3_resolution_minDiff cellArea area_pixel = 0) ∧
    (∀ K, 1 ≤ K → K ≤ 15 →
      (∀ j, 1 ≤ j → j < K →
        areaDifference cellArea area_pixel j ≤ areaDifference cellArea area_pixel (j - 1)) →
      areaDifference cellArea area_pixel (K - 1) < areaDifference cellArea area_pixel K →
      nearest_h3_resolution_minDiff cellArea area_pixel = K - 1) := by
  constructor
  · intro hmono
    unfold nearest_h3_resolution_minDiff
    rw [List.range_eq_range', show List.range' 0 16 = 0 :: List.range' 1 15 from rfl,
      minDiffGo_cons_none]
    exact minDiffGo_exhaust cellArea area_pixel 15 1 0 (by omega) (by omega)
      (fun j hj hj15 => hmono j hj hj15)
  · intro K hK1 hK15 hmono hbreak
    unfold nearest_h3_resolution_minDiff
    rw [List.range_eq_range', show List.range' 0 16 = 0 :: List.range' 1 15 from rfl,
      minDiffGo_cons_none]
    exact minDiffGo_break cellArea area_pixel 15 1 K 0 (by omega) (by omega) hK1 hK15
      (fun j hj hjK => hmono j hj hjK) hbreak

unseal Rat.add Rat.sub Rat.mul Rat.inv in
theorem C4_witness :
    nearest_h3_resolution_minDiff (fun r => (r : ℚ)) 2 = 2 := by
  have h := (C4_minDiff_scan (fun r => (r : ℚ)) 2).2 3 (by omega) (by omega)
    (by intro j h1 h2; interval_cases j <;> decide) (by decide)
  simpa using h

/-- Claim C10: every `CellCoverage` operation preserves the invariant that a
cell stored in `cells_by_resolution[i]` has resolution `i` (given the
operands satisfy it beforehand); consequently `compacted_iter` yields cells
in non-decreasing resolution order, and `covers` — which consults exactly
the bucket matching each ancestor's resolution — reports a cell exactly when
some stored cell is an ancestor-or-self of it. -/
theorem C10_bucket_invariant :
    (∀ (cov : CellCoverage) (c : CellIndex), cov.WF → cov.Inv → (cov.insert c).Inv) ∧
    (∀ (cov other : CellCoverage), cov.Inv → other.Inv → (cov.append other).Inv) ∧
    (∀ (cov : CellCoverage) (s p : Bool), cov.Inv → (cov.dedup s p).Inv) ∧
    (∀ (cov : CellCoverage), cov.WF → cov.Inv → cov.compact.Inv) ∧
    (∀ (cov : CellCoverage) (b : Bool), cov.WF → cov.Inv → (cov.finalize b).Inv) ∧
    (∀ (cov : CellCoverage), cov.Inv →
      cov.compacted_iter.Pairwise (fun a b => a.resolution ≤ b.resolution)) ∧
    (∀ (cov : CellCoverage) (c : CellIndex), cov.Inv →
      (cov.covers c = true ↔ cov.Covered c)) :=
  ⟨fun _ c hwf hinv => CellCoverage.inv_insert hwf hinv c,
   fun _ _ hc ho => CellCoverage.inv_append hc ho,
   fun _ s p hinv => CellCoverage.dedup_inv hinv s p,
   fun _ hwf hinv => CellCoverage.inv_compact hwf hinv,
   fun _ b hwf hinv => CellCoverage.inv_finalize hwf hinv b,
   fun _ hinv => CellCoverage.compacted_iter_sorted hinv,
   fun _ _ hinv => ⟨CellCoverage.covered_of_covers, CellCoverage.covers_of_covered hinv⟩⟩

unseal Rat.add Rat.sub Rat.mul Rat.inv in
/-- Claim C1 (failing-input evaluation): for a raster whose geographic frame
extends past the antimeridian (pixels x ∈ [0,3) at longitudes [179,182)),
the conversion window splits at the antimeridian and the piece carrying
offset −360 contains a cell with centroid longitude −179.5.  The code adds
the offset (instead of subtracting it, which would undo the normalization)
and the saturating `as usize` cast turns the resulting negative array
coordinate into pixel 0, so `to_h3` emits the pair `(10, cell)` — even
though the pixel containing the cell's centroid (the floored inverse
transform of the centroid itself, −359) lies outside the array, where the
claim requires the cell to be omitted. -/
theorem C1_antimeridian_misattribution :
    to_h3_pairs arrC1 transformC1 AxisOrder.XY tilerC1 centroidC1 =
      some [(10, cellRes0)] ∧
    transformC1.inverse.map (fun t => ⌊(t.apply (centroidC1 cellRes0)).x⌋) =
      some (-359) ∧
    (-359 : Int) < 0 ∧
    arrC1.entry 1 0 = 20 ∧ (10 : Nat) ≠ 20 := by decide

/-- Claim C9: the mapping returned by `to_h3` is independent of the order in
which chunk rectangles are processed and of the insertion order of cells
within a chunk: per-value buckets are combined via `append` and then sorted
and deduplicated before being exposed, so permuting the insertions of a
chunk, permuting the list of chunk coverages being reduced, or both at once
in the full per-value pipeline, yields an identical finalized coverage. -/
theorem C9_order_insensitive :
    (∀ (l₁ l₂ : List CellIndex), l₁.Perm l₂ → ∀ b : Bool,
      (CellCoverage.ofList l₁).finalize b = (CellCoverage.ofList l₂).finalize b) ∧
    (∀ (cs₁ cs₂ : List CellCoverage), cs₁.Perm cs₂ → ∀ b : Bool,
      (cs₁.foldl CellCoverage.append CellCoverage.empty).finalize b =
        (cs₂.foldl CellCoverage.append CellCoverage.empty).finalize b) ∧
    (∀ (chunks₁ chunks₂ chunks₃ : List (List CellIndex)) (b : Bool),
      List.Forall₂ List.Perm chunks₁ chunks₂ → chunks₂.Perm chunks₃ →
      pipelinePerValue b chunks₁ = pipelinePerValue b chunks₃) := by
  have part1 : ∀ (l₁ l₂ : List CellIndex), l₁.Perm l₂ → ∀ b : Bool,
      (CellCoverage.ofList l₁).finalize b = (CellCoverage.ofList l₂).finalize b := by
    intro l₁ l₂ h b
    apply CellCoverage.finalize_congr
    · rw [CellCoverage.ofList_modified, CellCoverage.ofList_modified]
      apply List.map_congr_left
      intro i _
      exact perm_any _ h
    · rw [CellCoverage.ofList_buckets, CellCoverage.ofList_buckets,
        List.map_map, List.map_map]
      apply List.map_congr_left
      intro i _
      simp only [Function.comp]
      exact sortDedup_congr_perm (h.filter _)
  have part2 : ∀ (cs₁ cs₂ : List CellCoverage), cs₁.Perm cs₂ → ∀ b : Bool,
      (cs₁.foldl CellCoverage.append CellCoverage.empty).finalize b =
        (cs₂.foldl CellCoverage.append CellCoverage.empty).finalize b := by
    intro cs₁ cs₂ h b
    apply CellCoverage.finalize_congr
    · rw [CellCoverage.foldl_append_modified cs₁ CellCoverage.empty
        (by simp [CellCoverage.empty]),
        CellCoverage.foldl_append_modified cs₂ CellCoverage.empty
        (by simp [CellCoverage.empty])]
      apply List.map_congr_left
      intro i _
      rw [perm_any _ h]
    · rw [CellCoverage.foldl_append_buckets cs₁ CellCoverage.empty
        (by simp [CellCoverage.empty]),
        CellCoverage.foldl_append_buckets cs₂ CellCoverage.empty
        (by simp [CellCoverage.empty]),
        List.map_map, List.map_map]
      apply List.map_congr_left
      intro i _
      simp only [Function.comp]
      exact sortDedup_congr_perm (by
        rw [CellCoverage.bucket_empty, List.nil_append, List.nil_append]
        exact (h.map _).flatten)
  have hmap : ∀ (c₁ c₂ : List (List CellIndex)) (b : Bool), List.Forall₂ List.Perm c₁ c₂ →
      c₁.map (fun l => (CellCoverage.ofList l).finalize b) =
        c₂.map (fun l => (CellCoverage.ofList l).finalize b) := by
    intro c₁ c₂ b h
    induction h with
    | nil => rfl
    | cons hab hrest ih => rw [List.map_cons, List.map_cons, part1 _ _ hab b, ih]
  refine ⟨part1, part2, ?_⟩
  intro chunks₁ chunks₂ chunks₃ b h12 h23
  unfold pipelinePerValue
  rw [hmap _ _ b h12]
  exact part2 _ _ (h23.map _) b

/-- Claim C8: for every 2-D array, nodata value and axis order, every array
element whose value differs from the nodata value has its (semantic `(x, y)`)
array coordinate inside at least one of the rectangles (inclusive integer
bounds) returned by `find_boxes_containing_data`. -/
theorem C8_find_boxes_cover {T : Type} [DecidableEq T] (a : ArrayView2 T) (nodata : T)
    (order : AxisOrder) (x y : Nat) (hx : x < xdim order a) (hy : y < ydim order a)
    (hval : semAt order a x y ≠ nodata) :
    ∃ r ∈ find_boxes_containing_data a nodata order,
      r.min.1 ≤ x ∧ x ≤ r.max.1 ∧ r.min.2 ≤ y ∧ y ≤ r.max.2 := by
  cases order with
  | XY =>
    have hx' : x < a.d0 := hx
    have hy' : y < a.d1 := hy
    have hval' : a.entry x y ≠ nodata := hval
    have hocc1 : sliceOccupied a 0 nodata x = true := by
      unfold sliceOccupied
      rw [if_pos rfl, List.any_eq_true]
      exact ⟨y, List.mem_range.mpr hy', decide_eq_true hval'⟩
    obtain ⟨p1, hp1, hx0, hx1⟩ := fcc_covers a 0 nodata (show x < a.shape 0 from hx') hocc1
    obtain ⟨x0, x1⟩ := p1
    simp only at hx0 hx1
    have hocc2 : sliceOccupied (a.slice0 x0 x1) 1 nodata y = true := by
      unfold sliceOccupied
      rw [if_neg (by omega), List.any_eq_true]
      refine ⟨x - x0, List.mem_range.mpr ?_, ?_⟩
      · show x - x0 < x1 + 1 - x0
        omega
      · have he : (a.slice0 x0 x1).entry (x - x0) y = a.entry x y := by
          show a.entry (x - x0 + x0) y = a.entry x y
          rw [Nat.sub_add_cancel hx0]
        rw [he]
        exact decide_eq_true hval'
    obtain ⟨p2, hp2, hy0, hy1⟩ := fcc_covers (a.slice0 x0 x1) 1 nodata
      (show y < a.d1 from hy') hocc2
    obtain ⟨y0, y1⟩ := p2
    simp only at hy0 hy1
    have hocc3 : sliceOccupied (((a.slice0 x0 x1).slice0 0 (x1 - x0)).slice1 y0 y1)
        0 nodata (x - x0) = true := by
      unfold sliceOccupied
      rw [if_pos rfl, List.any_eq_true]
      refine ⟨y - y0, List.mem_range.mpr ?_, ?_⟩
      · show y - y0 < y1 + 1 - y0
        omega
      · have he : (((a.slice0 x0 x1).slice0 0 (x1 - x0)).slice1 y0 y1).entry
            (x - x0) (y - y0) = a.entry x y := by
          show a.entry (x - x0 + 0 + x0) (y - y0 + y0) = a.entry x y
          rw [Nat.add_zero, Nat.sub_add_cancel hx0, Nat.sub_add_cancel hy0]
        rw [he]
        exact decide_eq_true hval'
    obtain ⟨p3, hp3, hx0', hx1'⟩ := fcc_covers
      (((a.slice0 x0 x1).slice0 0 (x1 - x0)).slice1 y0 y1) 0 nodata
      (show x - x0 < x1 - x0 + 1 - 0 by omega) hocc3
    obtain ⟨x0', x1'⟩ := p3
    simp only at hx0' hx1'
    refine ⟨RectUsize.new (x0' + x0, y0) (x1' + x0, y1), ?_, ?_, ?_, ?_, ?_⟩
    · unfold find_boxes_containing_data
      rw [List.mem_flatMap]
      refine ⟨(x0, x1), hp1, ?_⟩
      rw [List.mem_flatMap]
      refine ⟨(y0, y1), hp2, ?_⟩
      exact List.mem_map_of_mem _ hp3
    · simp only [RectUsize.new]
      omega
    · simp only [RectUsize.new]
      omega
    · simp only [RectUsize.new]
      omega
    · simp only [RectUsize.new]
      omega
  | YX =>
    have hx' : x < a.d1 := hx
    have hy' : y < a.d0 := hy
    have hval' : a.entry y x ≠ nodata := hval
    have hocc1 : sliceOccupied a 1 nodata x = true := by
      unfold sliceOccupied
      rw [if_neg (by omega), List.any_eq_true]
      exact ⟨y, List.mem_range.mpr hy', decide_eq_true hval'⟩
    obtain ⟨p1, hp1, hx0, hx1⟩ := fcc_covers a 1 nodata (show x < a.shape 1 from hx') hocc1
    obtain ⟨x0, x1⟩ := p1
    simp only at hx0 hx1
    have hocc2 : sliceOccupied (a.slice1 x0 x1) 0 nodata y = true := by
      unfold sliceOccupied
      rw [if_pos rfl, List.any_eq_true]
      refine ⟨x - x0, List.mem_range.mpr ?_, ?_⟩
      · show x - x0 < x1 + 1 - x0
        omega
      · have he : (a.slice1 x0 x1).entry y (x - x0) = a.entry y x := by
          show a.entry y (x - x0 + x0) = a.entry y x
          rw [Nat.sub_add_cancel hx0]
        rw [he]
        exact decide_eq_true hval'
    obtain ⟨p2, hp2, hy0, hy1⟩ := fcc_covers (a.slice1 x0 x1) 0 nodata
      (show y < a.d0 from hy') hocc2
    obtain ⟨y0, y1⟩ := p2
    simp only at hy0 hy1
    have hocc3 : sliceOccupied (((a.slice1 x0 x1).slice0 y0 y1).slice1 0 (x1 - x0))
        1 nodata (x - x0) = true := by
      unfold sliceOccupied
      rw [if_neg (by omega), List.any_eq_true]
      refine ⟨y - y0, List.mem_range.mpr ?_, ?_⟩
      · show y - y0 < y1 + 1 - y0
        omega
      · have he : (((a.slice1 x0 x1).slice0 y0 y1).slice1 0 (x1 - x0)).entry
            (y - y0) (x - x0) = a.entry y x := by
          show a.entry (y - y0 + y0) (x - x0 + 0 + x0) = a.entry y x
          rw [Nat.add_zero, Nat.sub_add_cancel hx0, Nat.sub_add_cancel hy0]
        rw [he]
        exact decide_eq_true hval'
    obtain ⟨p3, hp3, hx0', hx1'⟩ := fcc_covers
      (((a.slice1 x0 x1).slice0 y0 y1).slice1 0 (x1 - x0)) 1 nodata
      (show x - x0 < x1 - x0 + 1 - 0 by omega) hocc3
    obtain ⟨x0', x1'⟩ := p3
    simp only at hx0' hx1'
    refine ⟨RectUsize.new (x0' + x0, y0) (x1' + x0, y1), ?_, ?_, ?_, ?_, ?_⟩
    · unfold find_boxes_containing_data
      rw [List.mem_flatMap]
      refine ⟨(x0, x1), hp1, ?_⟩
      rw [List.mem_flatMap]
      refine ⟨(y0, y1), hp2, ?_⟩
      exact List.mem_map_of_mem _ hp3
    · simp only [RectUsize.new]
      omega
    · simp only [RectUsize.new]
      omega
    · simp only [RectUsize.new]
      omega
    · simp only [RectUsize.new]
      omega

theorem C8_witness :
    ∃ r ∈ find_boxes_containing_data (ArrayView2.mk 2 2
        (fun i j => if i = 1 ∧ j = 0 then (5 : Nat) else 0)) 0 AxisOrder.XY,
      r.min.1 ≤ 1 ∧ 1 ≤ r.max.1 ∧ r.min.2 ≤ 0 ∧ 0 ≤ r.max.2 :=
  C8_find_boxes_cover (ArrayView2.mk 2 2 (fun i j => if i = 1 ∧ j = 0 then 5 else 0))
    0 AxisOrder.XY 1 0 (by decide) (by decide) (by decide)

theorem C9_witness :
    pipelinePerValue true [[cellRes0, cellRes1], [cellRes1b]] =
      pipelinePerValue true [[cellRes1b], [cellRes1, cellRes0]] :=
  C9_order_insensitive.2.2 [[cellRes0, cellRes1], [cellRes1b]]
    [[cellRes1, cellRes0], [cellRes1b]] [[cellRes1b], [cellRes1, cellRes0]] true
    (by decide) (by decide)

theorem C10_witness :
    ((CellCoverage.ofList [cellRes0]).insert cellRes1).Inv ∧
    ((CellCoverage.ofList [cellRes1]).covers cellRes1b = true ↔
      (CellCoverage.ofList [cellRes1]).Covered cellRes1b) :=
  ⟨C10_bucket_invariant.1 (CellCoverage.ofList [cellRes0]) cellRes1
    (CellCoverage.wf_ofList _) (CellCoverage.ofList_inv _),
   C10_bucket_invariant.2.2.2.2.2.2 (CellCoverage.ofList [cellRes1]) cellRes1b
    (CellCoverage.ofList_inv _)⟩

end RasterH3
